import Mathlib

/-!
Shallow embedding of the prom_the_reaper sources (src/src/parser.rs,
src/src/hasher.rs, src/src/state.rs, src/src/server.rs, src/src/scraper.rs)
and proofs about the claims of the specification.

Rust `&str` / `String` values are modelled as `List Char` (Rust strings are
UTF-8; every byte index the code computes is the index of a 1-byte ASCII
character, so char positions and byte positions coincide at every slicing
boundary the code uses).  Machine integers are `Nat` / `Int` with explicit
`% 2 ^ w` where wrapping matters.  Fallible code (Rust code that can panic)
returns `Option`.
-/

namespace PromReaper

/-- The character `"` (written via its code point to keep source scanning simple). -/
def quoteC : Char := Char.ofNat 34

/-- The character `{`. -/
def lbraceC : Char := Char.ofNat 123

/-- The character `}`. -/
def rbraceC : Char := Char.ofNat 125

/-- Rust `char::is_whitespace`: the Unicode `White_Space` code points. -/
def isRustWhitespace (c : Char) : Bool :=
  let n := c.toNat
  (9 ≤ n && n ≤ 13) || n = 32 || n = 133 || n = 160 || n = 5760 ||
  (8192 ≤ n && n ≤ 8202) || n = 8232 || n = 8233 || n = 8239 || n = 8287 || n = 12288

/-- Rust `str::trim`: drop whitespace from both ends. -/
def trimChars (cs : List Char) : List Char :=
  ((cs.dropWhile isRustWhitespace).reverse.dropWhile isRustWhitespace).reverse

/-- Lexicographic order on `List Char` by code point.  This is the order in
which Rust's `sort_unstable` sorts `&str` slices: Rust compares UTF-8 bytes
lexicographically, which coincides with code-point lexicographic order. -/
def listCharLe : List Char → List Char → Bool
  | [], _ => true
  | _ :: _, [] => false
  | a :: as, b :: bs =>
    if a.toNat < b.toNat then true
    else if b.toNat < a.toNat then false
    else listCharLe as bs

/-- Index of the first occurrence of a character, Rust `str::find(c)`. -/
def findIdxC (c : Char) : List Char → Option Nat
  | [] => none
  | a :: as => if a = c then some 0 else (findIdxC c as).map (· + 1)

/-- Index of the last occurrence of a character, Rust `str::rfind(c)`. -/
def rfindIdxC (c : Char) (cs : List Char) : Option Nat :=
  (findIdxC c cs.reverse).map (fun k => cs.length - 1 - k)

/-- The comma-splitting pass of `extract_sorted_label_key` (parser.rs:293-306):
walk the characters keeping a quote parity (`depth ^= 1` on every `"`), and cut
at commas that occur at parity 0; each segment is `trim`med as it is pushed. -/
def splitTopAux : List Char → Bool → List Char → List (List Char) → List (List Char)
  | [], _, cur, acc => acc ++ [trimChars cur]
  | c :: cs, depth, cur, acc =>
    if c = quoteC then splitTopAux cs (!depth) (cur ++ [c]) acc
    else if c = ',' && depth = false then splitTopAux cs depth [] (acc ++ [trimChars cur])
    else splitTopAux cs depth (cur ++ [c]) acc

/-- Rust `Vec::join(",")`. -/
def joinComma : List (List Char) → List Char
  | [] => []
  | [p] => p
  | p :: ps => p ++ [','] ++ joinComma ps

/-- `extract_sorted_label_key` (parser.rs:275-309): label pairs between the
first `{` and the last `}`, split on commas outside quotes, trimmed, sorted,
re-joined with commas. -/
def extract_sorted_label_key (line : List Char) : List Char :=
  match findIdxC lbraceC line with
  | none => []
  | some opn =>
    match rfindIdxC rbraceC line with
    | none => []
    | some close =>
      if close ≤ opn then []
      else
        let labels_str := (line.take close).drop (opn + 1)
        if labels_str = [] then []
        else
          let pairs := splitTopAux labels_str false [] []
          joinComma (pairs.insertionSort (fun a b => listCharLe a b))

/-- Quote parity accumulated over a segment (toggled on every `"`), starting
from `par`; the state `depth` of the splitting loop. -/
def quoteParity : List Char → Bool → Bool
  | [], par => par
  | c :: cs, par => quoteParity cs (if c = quoteC then !par else par)

/-- `true` when scanning the segment from quote parity `par` meets no comma at
parity 0, i.e. the splitter never cuts inside the segment.  A well-formed
label pair `k="v"` satisfies `noTopComma p false` and `quoteParity p false =
false` (balanced quotes). -/
def noTopComma : List Char → Bool → Bool
  | [], _ => true
  | c :: cs, par =>
    if c = quoteC then noTopComma cs (!par)
    else if c = ',' ∧ par = false then false
    else noTopComma cs par

/-! ### Hasher (src/src/hasher.rs)

`jump_consistent_hash` mixes 64-bit wrapping integer arithmetic with one f64
expression, `((b + 1) as f64 * ((1i64 << 31) as f64) / ((key >> 33) as f64 + 1.0)) as i64`.
All the f64 conversions and the multiplication are exact: `b + 1 ≤ 2^32` has at
most 32 significant bits, so `(b+1) * 2^31` has at most 32 significant bits and
fits a 53-bit mantissa; `key >> 33 < 2^31` and `(key >> 33) + 1 ≤ 2^31` are
exact as well.  The only rounding happens in the division, which IEEE 754
rounds to nearest, ties to even, at 53 significant bits.  `rnDivFloor` below
computes `trunc(RN53(P / s))` exactly with Nat arithmetic. -/

/-- Fuel-driven floor of log2 (⌊log2 n⌋ for `1 ≤ n < 2 ^ fuel`); structural on
fuel so the kernel can evaluate it. -/
def log2f : Nat → Nat → Nat
  | 0, _ => 0
  | f + 1, n => if 2 ≤ n then log2f f (n / 2) + 1 else 0

/-- Floor of log2 for the 64-bit quantities the hasher manipulates. -/
def floorLog2 (n : Nat) : Nat := log2f 64 n

/-- Round `a / b` to the nearest integer, ties to even (the IEEE 754 default
rounding applied to a mantissa). -/
def roundHalfEven (a b : Nat) : Nat :=
  let q := a / b
  let r := a % b
  if 2 * r < b then q
  else if b < 2 * r then q + 1
  else if q % 2 = 0 then q else q + 1

/-- `trunc(RN53(P / s))`: the f64 division of the exactly-representable
naturals `P` and `s`, rounded to 53 significant bits (nearest, ties to even),
then truncated to an integer, for `s ≤ P`.  The quotient lies in
`[2^e, 2^(e+1))` with `e = ⌊log2 (P/s)⌋`, so the rounding grid has spacing
`2^(e-52)`. -/
def rnDivFloor (P s : Nat) : Nat :=
  let e := floorLog2 (P / s)
  if e ≤ 52 then roundHalfEven (P * 2 ^ (52 - e)) s / 2 ^ (52 - e)
  else roundHalfEven P (s * 2 ^ (e - 52)) * 2 ^ (e - 52)

/-- One evaluation of the loop's j-expression (hasher.rs:21-22) for the
already-updated key `key2` and `b1 = b + 1`. -/
def nextJ (key2 b1 : Nat) : Nat :=
  rnDivFloor (b1 * 2 ^ 31) (key2 / 2 ^ 33 + 1)

/-- The `while` loop of `jump_consistent_hash` (hasher.rs:15-25), with fuel.
State: `key` (u64 as `Nat < 2^64`), `b` and `j` (i64 as `Int`).  Each
iteration sets `b := j`, advances the LCG key, and recomputes `j`.  Fuel
`N + 1` always suffices (proved below): `j` strictly increases each
iteration. -/
def jumpAux (N : Nat) : Nat → Nat → Int → Int → Int
  | 0, _, b, _ => b
  | fuel + 1, key, b, j =>
    if j < (N : Int) then
      let key2 := (key * 2862933555777941757 + 1) % 2 ^ 64
      jumpAux N fuel key2 j ((nextJ key2 (j.toNat + 1) : Nat) : Int)
    else b

/-- `jump_consistent_hash` (hasher.rs:15-25). -/
def jump_consistent_hash (key : Nat) (num_buckets : Nat) : Int :=
  jumpAux num_buckets (num_buckets + 1) key (-1) 0

/-- `assign_shard_from_parts` (hasher.rs:5-11).  The XXH3 digest of
`name ++ 0x00 ++ label_key` comes from the external `xxhash_rust` crate, which
is not part of this repository; it is abstracted as an arbitrary function
`hash` of the two parts (all claims about this function hold for every 64-bit
digest).  `% 2^64` models the u64 digest; the final `b as u32` cast is
`emod 2^32`. -/
def assign_shard_from_parts (hash : List Char → List Char → Nat)
    (name label_key : List Char) (num_shards : Nat) : Nat :=
  ((jump_consistent_hash (hash name label_key % 2 ^ 64) num_shards) % (2 ^ 32 : Int)).toNat

/-! ### Parser data model (src/src/parser.rs:1-19) -/

/-- Replace the element at index `i` (no-op when out of range); Rust's in-place
`families[idx].… = …` updates on a `Vec`. -/
def updAt : List α → Nat → (α → α) → List α
  | [], _, _ => []
  | a :: as, 0, f => f a :: as
  | a :: as, n + 1, f => a :: updAt as n f

/-- `Sample` (parser.rs:4-7): the verbatim line including trailing newline. -/
structure Sample where
  raw_line : List Char
deriving DecidableEq, Repr

/-- `ParsedFamily` (parser.rs:10-19). -/
structure ParsedFamily where
  name : List Char
  help_line : Option (List Char)
  type_line : Option (List Char)
  samples : List Sample
deriving DecidableEq, Repr

/-- A default family for total indexing (`merged[idx]` in Rust is
panic-guarded by construction; the index is always in range). -/
def dfltFam : ParsedFamily := ⟨[], none, none, []⟩

/-- Rust `str::lines` on `input`: split on `\n`, where a final newline does
not produce a trailing empty line, and a trailing `\r` is stripped. -/
def splitNl : List Char → List (List Char)
  | [] => [[]]
  | c :: cs =>
    if c = '\n' then [] :: splitNl cs
    else
      match splitNl cs with
      | s :: rest => (c :: s) :: rest
      | [] => [[c]]

/-- Rust `str::lines`. -/
def rustLines (s : List Char) : List (List Char) :=
  let parts := splitNl s
  let parts := if parts.getLast? = some [] then parts.dropLast else parts
  parts.map (fun l => if l.getLast? = some '\r' then l.dropLast else l)

/-- `first_token` (parser.rs:235-237): first whitespace-delimited token. -/
def first_token (s : List Char) : List Char :=
  (s.dropWhile isRustWhitespace).takeWhile (fun c => !isRustWhitespace c)

/-- `extract_metric_name` (parser.rs:240-243): everything before the first
`{` or space. -/
def extract_metric_name (line : List Char) : List Char :=
  line.takeWhile (fun c => ¬ (c = lbraceC ∨ c = ' '))

/-- Rust `str::strip_suffix` for a multi-character suffix. -/
def stripSuffixL (s suf : List Char) : Option (List Char) :=
  if suf.isSuffixOf s then some (s.take (s.length - suf.length)) else none

/-- The histogram/summary suffix list of parser.rs:247. -/
def promSuffixes : List (List Char) :=
  [("_bucket").toList, ("_count").toList, ("_sum").toList,
   ("_total").toList, ("_created").toList, ("_info").toList]

/-- `base_name` (parser.rs:246-253): strip the first matching known suffix. -/
def base_name (sample_name : List Char) : List Char :=
  match promSuffixes.findSome? (stripSuffixL sample_name) with
  | some b => b
  | none => sample_name

/-- `sample_belongs_to` (parser.rs:257-269). -/
def sample_belongs_to (sample_name bn : List Char) : Bool :=
  if sample_name = bn then true
  else if bn.isPrefixOf sample_name then
    promSuffixes.contains (sample_name.drop bn.length)
  else false

/-- `get_or_insert` (parser.rs:221-232): index of the family with this name,
appending a fresh one if absent. -/
def get_or_insert (families : List ParsedFamily) (name : List Char) :
    List ParsedFamily × Nat :=
  match families.findIdx? (fun f => f.name = name) with
  | some pos => (families, pos)
  | none => (families ++ [⟨name, none, none, []⟩], families.length)

/-- Append a sample (the verbatim line plus newline) to family `idx`. -/
def pushSample (families : List ParsedFamily) (idx : Nat) (line : List Char) :
    List ParsedFamily :=
  updAt families idx (fun f => { f with samples := f.samples ++ [⟨line ++ ['\n']⟩] })

/-- One iteration of the `for line in input.lines()` loop of `parse_families`
(parser.rs:107-152).  State: `(families, current_idx, current_base)`. -/
def parseLineStep (st : List ParsedFamily × Option Nat × Option (List Char))
    (line : List Char) : List ParsedFamily × Option Nat × Option (List Char) :=
  let (families, current_idx, current_base) := st
  if line = [] then st
  else if ("# HELP ").toList.isPrefixOf line then
    let name := first_token (line.drop 7)
    let (families, idx) := get_or_insert families name
    (updAt families idx (fun f => { f with help_line := some (line ++ ['\n']) }),
     some idx, some name)
  else if ("# TYPE ").toList.isPrefixOf line then
    let name := first_token (line.drop 7)
    let (families, idx) := get_or_insert families name
    (updAt families idx (fun f => { f with type_line := some (line ++ ['\n']) }),
     some idx, some name)
  else if line.head? = some '#' then st
  else
    let sample_name := extract_metric_name line
    match current_base with
    | some bn =>
      if sample_belongs_to sample_name bn then
        match current_idx with
        | some idx => (pushSample families idx line, current_idx, current_base)
        | none =>
          let (families, idx) := get_or_insert families bn
          (pushSample families idx line, current_idx, current_base)
      else
        let bn2 := base_name sample_name
        let (families, idx) := get_or_insert families bn2
        (pushSample families idx line, some idx, some bn2)
    | none =>
      let bn2 := base_name sample_name
      let (families, idx) := get_or_insert families bn2
      (pushSample families idx line, some idx, some bn2)

/-- `parse_families` (parser.rs:100-157). -/
def parse_families (input : List Char) : List ParsedFamily :=
  let st := (rustLines input).foldl parseLineStep ([], none, none)
  st.1.filter (fun f => f.samples ≠ [])

/-! ### Label injection (src/src/parser.rs:21-93) -/

/-- `escape_label_value` (parser.rs:57-59): `\` → `\\` then `"` → `\"`. -/
def escape_label_value (s : List Char) : List Char :=
  (s.flatMap (fun c => if c = '\\' then ['\\', '\\'] else [c])).flatMap
    (fun c => if c = quoteC then ['\\', quoteC] else [c])

/-- `inject_into_line` (parser.rs:69-93).  Returns `none` where the Rust code
panics: slicing `&content[open+1..close]` demands `open+1 ≤ close` and
`&content[close+1..]` demands `close+1 ≤ content.len()`; when the line has a
`{` but no `}`, `close` is `content.len()` and the second slice is out of
bounds. -/
def inject_into_line (line extra_str : List Char) : Option (List Char) :=
  let content := if line.getLast? = some '\n' then line.dropLast else line
  match findIdxC lbraceC content with
  | some opn =>
    let close := (rfindIdxC rbraceC content).getD content.length
    if close < opn + 1 then none
    else if content.length < close + 1 then none
    else
      let existing := (content.take close).drop (opn + 1)
      let after := content.drop (close + 1)
      let labels := if existing = [] then extra_str
                    else existing ++ [','] ++ extra_str
      some (content.take opn ++ [lbraceC] ++ labels ++ [rbraceC] ++ after ++ ['\n'])
  | none =>
    let space := (findIdxC ' ' content).getD content.length
    some (content.take space ++ [lbraceC] ++ extra_str ++ [rbraceC]
          ++ content.drop space ++ ['\n'])

/-- `inject_labels` (parser.rs:31-54).  `extra` models the `HashMap`'s entry
list (keys distinct); the `BTreeMap` collection sorts it by key, giving the
pre-rendered `k1="v1",k2="v2"` fragment.  `none` models a panic in
`inject_into_line`. -/
def inject_labels (families : List ParsedFamily)
    (extra : List (List Char × List Char)) : Option (List ParsedFamily) :=
  if extra = [] then some families
  else
    let sorted := extra.insertionSort (fun a b => listCharLe a.1 b.1)
    let extra_str := joinComma
      (sorted.map (fun kv => kv.1 ++ ['=', quoteC] ++ escape_label_value kv.2 ++ [quoteC]))
    families.mapM (fun f =>
      (f.samples.mapM (fun s =>
        (inject_into_line s.raw_line extra_str).map Sample.mk)).map
        (fun samples => { f with samples := samples }))

/-! ### Merger (src/src/parser.rs:160-218) -/

/-- `MergeStats` (parser.rs:160-165). -/
structure MergeStats where
  duplicate_count : Nat
  examples : List (List Char)
deriving DecidableEq, Repr

/-- The body of the inner `for sample in family.samples` loop of
`merge_families` (parser.rs:188-203): a sample whose LabelKey is already in
the (frozen) `existing_keys` set is dropped, counted, and possibly recorded
as an example; otherwise it is appended to `merged[idx]`. -/
def mergeSampleStep (fname : List Char) (idx : Nat) (existing_keys : List (List Char))
    (st2 : List ParsedFamily × Nat × List (List Char)) (s : Sample) :
    List ParsedFamily × Nat × List (List Char) :=
  let (m, d, e) := st2
  let label_key := extract_sorted_label_key s.raw_line
  if label_key ∈ existing_keys then
    let ex := if label_key = [] then fname
              else fname ++ [lbraceC] ++ label_key ++ [rbraceC]
    (m, d + 1, if e.length < 3 then e ++ [ex] else e)
  else
    (updAt m idx (fun f => { f with samples := f.samples ++ [s] }), d, e)

/-- Processing of one incoming family by `merge_families` (parser.rs:179-209).
The `name_to_idx` HashMap always maps a name to the unique index of the
family with that name in `merged` (names in `merged` are pairwise distinct by
construction), so the lookup is modelled by `findIdx?`.  `existing_keys` is
computed once, before the inner sample loop, exactly as in the source. -/
def mergeStep (st : List ParsedFamily × Nat × List (List Char))
    (family : ParsedFamily) : List ParsedFamily × Nat × List (List Char) :=
  let (merged, dup, exs) := st
  match merged.findIdx? (fun f => f.name = family.name) with
  | some idx =>
    let existing_keys :=
      ((merged.getD idx dfltFam).samples).map (fun s => extract_sorted_label_key s.raw_line)
    family.samples.foldl (mergeSampleStep family.name idx existing_keys) (merged, dup, exs)
  | none => (merged ++ [family], dup, exs)

/-- `merge_families` (parser.rs:173-218). -/
def merge_families (families : List ParsedFamily) :
    List ParsedFamily × MergeStats :=
  let st := families.foldl mergeStep ([], 0, [])
  (st.1, ⟨st.2.1, st.2.2⟩)

/-! ### Shard builder (src/src/state.rs) -/

/-- `ShardData` (state.rs:19-25); `text: Bytes` is the frozen UTF-8 text. -/
structure ShardData where
  text : List Char
  families_count : Nat
  series_count : Nat
deriving DecidableEq, Repr

/-- The running state of the `build_shards` loop (state.rs:40-44):
shard texts, per-shard series counters, and the `(shard_idx, family_name)`
header-dedup set (a `HashSet`, modelled as a duplicate-free list). -/
abbrev BsState := List (List Char) × List Nat × List (Nat × List Char)

/-- One inner-loop iteration of `build_shards` (state.rs:47-67): hash the
sample to a shard, emit HELP/TYPE if this `(shard, family)` is new, append
the sample line, bump the series counter. -/
def bsStep (hash : List Char → List Char → Nat) (num_shards : Nat)
    (family : ParsedFamily) (st : BsState) (s : Sample) : BsState :=
  let (texts, series, headers) := st
  let sample_name := extract_metric_name s.raw_line
  let label_key := extract_sorted_label_key s.raw_line
  let shard_id := assign_shard_from_parts hash sample_name label_key num_shards
  let (texts, headers) :=
    if (shard_id, family.name) ∈ headers then (texts, headers)
    else
      (updAt texts shard_id
        (fun t => t ++ (family.help_line.getD []) ++ (family.type_line.getD [])),
       headers ++ [(shard_id, family.name)])
  (updAt texts shard_id (fun t => t ++ s.raw_line),
   updAt series shard_id (· + 1), headers)

/-- The full double loop of `build_shards` (state.rs:46-68). -/
def bsFold (hash : List Char → List Char → Nat) (num_shards : Nat)
    (families : List ParsedFamily) (st : BsState) : BsState :=
  families.foldl (fun st f => f.samples.foldl (bsStep hash num_shards f) st) st

/-- `build_shards` (state.rs:39-85). -/
def build_shards (hash : List Char → List Char → Nat)
    (families : List ParsedFamily) (num_shards : Nat) : List ShardData :=
  let st := bsFold hash num_shards families
    (List.replicate num_shards [], List.replicate num_shards 0, [])
  (List.range num_shards).map (fun i =>
    ⟨st.1.getD i [],
     (st.2.2.filter (fun p => p.1 = i)).length,
     st.2.1.getD i 0⟩)

/-! Ghost instrumentation for `build_shards`: the same fold, but each shard
accumulates the list of emitted pieces (header block or sample line) instead
of flat text.  `build_shards`'s texts are provably the rendered
concatenation of these events, which lets the theorems speak about "the
HELP/TYPE block appears once, before the first sample of the family". -/

/-- One emitted piece of a shard's text. -/
inductive SEvent where
  | header (name : List Char) (help_line : Option (List Char)) (type_line : Option (List Char))
  | sample (name : List Char) (raw : List Char)
deriving DecidableEq, Repr

/-- The text a piece contributes to the shard body. -/
def renderEvent : SEvent → List Char
  | .header _ h t => h.getD [] ++ t.getD []
  | .sample _ raw => raw

/-- The family name a piece belongs to. -/
def eventName : SEvent → List Char
  | .header n _ _ => n
  | .sample n _ => n

/-- Whether a piece is a header block. -/
def isHeaderEv : SEvent → Bool
  | .header _ _ _ => true
  | .sample _ _ => false

/-- Ghost state: per-shard event lists, series counters, header-dedup set. -/
abbrev GsState := List (List SEvent) × List Nat × List (Nat × List Char)

/-- Ghost twin of `bsStep` recording events instead of text. -/
def gsStep (hash : List Char → List Char → Nat) (num_shards : Nat)
    (family : ParsedFamily) (st : GsState) (s : Sample) : GsState :=
  let (evs, series, headers) := st
  let sample_name := extract_metric_name s.raw_line
  let label_key := extract_sorted_label_key s.raw_line
  let shard_id := assign_shard_from_parts hash sample_name label_key num_shards
  let (evs, headers) :=
    if (shard_id, family.name) ∈ headers then (evs, headers)
    else
      (updAt evs shard_id (fun t => t ++ [.header family.name family.help_line family.type_line]),
       headers ++ [(shard_id, family.name)])
  (updAt evs shard_id (fun t => t ++ [.sample family.name s.raw_line]),
   updAt series shard_id (· + 1), headers)

/-- Ghost twin of `bsFold`. -/
def gsFold (hash : List Char → List Char → Nat) (num_shards : Nat)
    (families : List ParsedFamily) (st : GsState) : GsState :=
  families.foldl (fun st f => f.samples.foldl (gsStep hash num_shards f) st) st

/-- The event list of shard `i` produced by running `build_shards`. -/
def build_events (hash : List Char → List Char → Nat)
    (families : List ParsedFamily) (num_shards : Nat) (i : Nat) : List SEvent :=
  (gsFold hash num_shards families
    (List.replicate num_shards [], List.replicate num_shards 0, [])).1.getD i []

/-- The shard a sample line is assigned to (state.rs:49-52). -/
def assignOf (hash : List Char → List Char → Nat) (num_shards : Nat)
    (raw : List Char) : Nat :=
  assign_shard_from_parts hash (extract_metric_name raw)
    (extract_sorted_label_key raw) num_shards

/-- The sample events of shard `i`, in input order: one per input sample
whose line hashes to shard `i`. -/
def assignedEvents (hash : List Char → List Char → Nat) (num_shards : Nat)
    (families : List ParsedFamily) (i : Nat) : List SEvent :=
  families.flatMap (fun f =>
    (f.samples.filter (fun s => assignOf hash num_shards s.raw_line = i)).map
      (fun s => SEvent.sample f.name s.raw_line))

/-- Total number of samples in a family list. -/
def totalSamples (families : List ParsedFamily) : Nat :=
  (families.map (fun f => f.samples.length)).sum

/-- The sample events of an event list (headers removed). -/
def sampleEventsOf (l : List SEvent) : List SEvent :=
  l.filter (fun ev => !(isHeaderEv ev))

/-- The events belonging to family name `n`. -/
def famEvents (n : List Char) (l : List SEvent) : List SEvent :=
  l.filter (fun ev => eventName ev = n)

/-- How many header blocks for family name `n` an event list carries. -/
def countHeader (n : List Char) (l : List SEvent) : Nat :=
  l.countP (fun ev => isHeaderEv ev && (eventName ev = n : Bool))

/-! ### HTTP surface (src/src/server.rs:28-78) -/

/-- The observable part of an axum `Response` for `shard_handler`. -/
structure HttpResponse where
  status : Nat
  body : List Char
  gzipped : Bool
deriving DecidableEq, Repr

/-- `shard_handler` (server.rs:28-78).  Order of checks is the source's:
out-of-range id gives 404 first; an empty shard vector (no successful scrape
yet) gives 503; otherwise 200 with the shard body (the gzip branch serves a
compressed encoding of the same text; the compressor is the external
`flate2` crate, so the body is modelled as the uncompressed text with the
`gzipped` flag set). -/
def shard_handler (id : Nat) (num_shards : Nat) (shards : List ShardData)
    (accepts_gzip : Bool) : HttpResponse :=
  if num_shards ≤ id then
    ⟨404, ("shard ").toList ++ (Nat.repr id).toList
          ++ (" not found, valid range is 0..").toList ++ (Nat.repr num_shards).toList,
     false⟩
  else if shards = [] then
    ⟨503, ("metrics not yet available").toList, false⟩
  else
    let shard := shards.getD id ⟨[], 0, 0⟩
    if accepts_gzip then ⟨200, shard.text, true⟩ else ⟨200, shard.text, false⟩

/-! ### Scrape cycle (src/src/scraper.rs:27-76)

The pure core of one `run_scrape_loop` iteration, after all fetch tasks have
completed.  Each entry of `results` is `some families` for a source whose
fetch succeeded (`scrape_all` parses the body with `parse_families` and
returns it — scraper.rs:106-110 — it performs no label injection), or `none`
for a failed source.  The loop extends `all_families` with each success in
order, and if any source succeeded it publishes `build_shards(all_families)`
directly (scraper.rs:61-68 — `merge_families` is never invoked); otherwise
the previous snapshot is kept. -/

/-- The per-source success path of `scrape_all` (scraper.rs:106-110): the
body is parsed; nothing else is done to the families. -/
def scrape_success_families (body : List Char) : List ParsedFamily :=
  parse_families body

/-- The publish step of `run_scrape_loop` (scraper.rs:27-75). -/
def scrape_cycle_publish (hash : List Char → List Char → Nat)
    (results : List (Option (List ParsedFamily))) (num_shards : Nat)
    (prev : List ShardData) : List ShardData :=
  let all_families := (results.filterMap id).flatten
  let any_success := results.any (fun r => r.isSome)
  if any_success then build_shards hash all_families num_shards else prev

/-! ### Spec-side counting functions (used to state the merger claim) -/

/-- Number of samples of `f` whose LabelKey is `k`. -/
def countKeyIn (f : ParsedFamily) (k : List Char) : Nat :=
  (f.samples.filter (fun s => extract_sorted_label_key s.raw_line = k)).length

/-- Number of samples with family name `n` and LabelKey `k` across a family
list. -/
def countNK (fams : List ParsedFamily) (n k : List Char) : Nat :=
  ((fams.filter (fun f => f.name = n)).map (fun f => countKeyIn f k)).sum

/-- The number of `(n, k)` samples in the *first* entry of name `n` that
contains the key `k` (0 when no entry does): what the first-wins merge keeps. -/
def firstWinsCount : List ParsedFamily → List Char → List Char → Nat
  | [], _, _ => 0
  | f :: rest, n, k =>
    if f.name = n then
      if countKeyIn f k ≠ 0 then countKeyIn f k else firstWinsCount rest n k
    else firstWinsCount rest n k

/-- Whether some entry of the list has the given family name. -/
def containsName (fams : List ParsedFamily) (n : List Char) : Bool :=
  fams.any (fun f => f.name = n)

/-- The samples of `f` whose LabelKey is `k`, verbatim and in order. -/
def samplesOfKey (f : ParsedFamily) (k : List Char) : List Sample :=
  f.samples.filter (fun s => extract_sorted_label_key s.raw_line = k)

/-- The samples with family name `n` and LabelKey `k` across a family list,
verbatim and in order. -/
def samplesNK (fams : List ParsedFamily) (n k : List Char) : List Sample :=
  (fams.filter (fun f => f.name = n)).flatMap (fun f => samplesOfKey f k)

/-- The `(n, k)` samples of the *first* entry of name `n` that contains key
`k` (`[]` when no entry does): the very samples a first-wins merge keeps. -/
def firstWinsSamples : List ParsedFamily → List Char → List Char → List Sample
  | [], _, _ => []
  | f :: rest, n, k =>
    if f.name = n then
      if samplesOfKey f k ≠ [] then samplesOfKey f k else firstWinsSamples rest n k
    else firstWinsSamples rest n k

/-! ### Concrete fixtures used by the theorems -/

/-- A fixed digest function (the claims hold for every digest; concrete
evaluations use this one). -/
def hashZero : List Char → List Char → Nat := fun _ _ => 0

/-- The family `up` with the single sample `up 1`, as parsed from a source
body `"up 1\n"`. -/
def upOneFam : ParsedFamily := ⟨("up").toList, none, none, [⟨("up 1\n").toList⟩]⟩

/-- The family `up` with the single sample `up 0`. -/
def upZeroFam : ParsedFamily := ⟨("up").toList, none, none, [⟨("up 0\n").toList⟩]⟩

/-- Input families for the merger claim counterexample: the pair
`("m", a="1")` occurs twice, both times inside the second occurrence of
family `m`. -/
def c5fams : List ParsedFamily :=
  [⟨("m").toList, none, none, [⟨("m 1\n").toList⟩]⟩,
   ⟨("m").toList, none, none,
    [⟨("m\x7ba=\"1\"\x7d 1\n").toList⟩, ⟨("m\x7ba=\"1\"\x7d 2\n").toList⟩]⟩]

/-- Input families for the HELP/TYPE-adoption claim: the first occurrence of
`m` declares nothing, the second declares both HELP and TYPE. -/
def c6fams : List ParsedFamily :=
  [⟨("m").toList, none, none, [⟨("m 1\n").toList⟩]⟩,
   ⟨("m").toList, some (("# HELP m x\n").toList), some (("# TYPE m gauge\n").toList),
    [⟨("m\x7ba=\"9\"\x7d 2\n").toList⟩]⟩]


/-! ### Hasher lemmas -/

theorem log2f_bounds :
    ∀ f n, 1 ≤ n → n < 2 ^ f → 2 ^ log2f f n ≤ n ∧ n < 2 ^ (log2f f n + 1) := by
  intro f
  induction f with
  | zero => intro n h1 h2; omega
  | succ f ih =>
    intro n h1 h2
    by_cases h : 2 ≤ n
    · have hpow : 2 ^ (f + 1) = 2 * 2 ^ f := by rw [pow_succ]; ring
      have hr := ih (n / 2) (by omega) (by omega)
      simp only [log2f, if_pos h]
      have h2e : 2 ^ (log2f f (n / 2) + 1) = 2 * 2 ^ log2f f (n / 2) := by
        rw [pow_succ]; ring
      have h2e2 : 2 ^ (log2f f (n / 2) + 1 + 1) = 2 * 2 ^ (log2f f (n / 2) + 1) := by
        rw [pow_succ _ (log2f f (n / 2) + 1)]; ring
      omega
    · have hn : n = 1 := by omega
      simp [log2f, h, hn]

theorem roundHalfEven_ge_div (a b : Nat) : a / b ≤ roundHalfEven a b := by
  simp only [roundHalfEven]
  split_ifs <;> omega

/-- Progress bound for the f64 step of the jump hash: for `1 ≤ b1 ≤ 2^32` and
`1 ≤ s ≤ 2^31`, the real quotient `b1 * 2^31 / s` is at least `b1`, `b1` is
exactly representable, and rounding to nearest never crosses a representable
value, so the truncated rounded quotient is still at least `b1`. -/
theorem rnDivFloor_ge (b1 s : Nat) (hb1 : 1 ≤ b1) (hb2 : b1 ≤ 2 ^ 32)
    (hs1 : 1 ≤ s) (hs2 : s ≤ 2 ^ 31) : b1 ≤ rnDivFloor (b1 * 2 ^ 31) s := by
  have hsP : s ≤ b1 * 2 ^ 31 := le_trans hs2 (by nlinarith)
  have hq1 : 1 ≤ b1 * 2 ^ 31 / s := (Nat.one_le_div_iff (by omega)).2 hsP
  have hqU : b1 * 2 ^ 31 / s < 2 ^ 64 := by
    have h1 : b1 * 2 ^ 31 / s ≤ b1 * 2 ^ 31 := Nat.div_le_self _ _
    have h2 : b1 * 2 ^ 31 ≤ 2 ^ 32 * 2 ^ 31 := Nat.mul_le_mul_right _ hb2
    have h3 : (2 : Nat) ^ 32 * 2 ^ 31 < 2 ^ 64 := by norm_num
    omega
  obtain ⟨hlo, hhi⟩ := log2f_bounds 64 (b1 * 2 ^ 31 / s) hq1 hqU
  simp only [rnDivFloor, floorLog2]
  set e := log2f 64 (b1 * 2 ^ 31 / s) with he
  split_ifs with hle
  · -- e ≤ 52 : compare at mantissa scale 2^(52-e)
    rw [Nat.le_div_iff_mul_le (Nat.two_pow_pos _)]
    refine le_trans ?_ (roundHalfEven_ge_div _ s)
    rw [Nat.le_div_iff_mul_le (by omega)]
    calc b1 * 2 ^ (52 - e) * s ≤ b1 * 2 ^ (52 - e) * 2 ^ 31 :=
          Nat.mul_le_mul_left _ hs2
      _ = b1 * 2 ^ 31 * 2 ^ (52 - e) := by ring
  · -- e > 52 : the value is at least 2^e ≥ 2^53 > 2^32 ≥ b1
    push_neg at hle
    have h52 : 2 ^ 52 ≤ b1 * 2 ^ 31 / (s * 2 ^ (e - 52)) := by
      rw [← Nat.div_div_eq_div_mul]
      calc (2 : Nat) ^ 52 = 2 ^ e / 2 ^ (e - 52) := by
            rw [Nat.pow_div (by omega) (by norm_num)]
            congr 1
            omega
        _ ≤ b1 * 2 ^ 31 / s / 2 ^ (e - 52) := Nat.div_le_div_right hlo
    have hm : 2 ^ 52 ≤ roundHalfEven (b1 * 2 ^ 31) (s * 2 ^ (e - 52)) :=
      le_trans h52 (roundHalfEven_ge_div _ _)
    have hpow : (2 : Nat) ^ 32 ≤ 2 ^ 52 * 2 ^ (e - 52) :=
      calc (2 : Nat) ^ 32 ≤ 2 ^ 52 := Nat.pow_le_pow_right (by norm_num) (by norm_num)
        _ ≤ 2 ^ 52 * 2 ^ (e - 52) :=
            Nat.le_mul_of_pos_right _ (Nat.two_pow_pos _)
    calc b1 ≤ 2 ^ 32 := hb2
      _ ≤ 2 ^ 52 * 2 ^ (e - 52) := hpow
      _ ≤ roundHalfEven (b1 * 2 ^ 31) (s * 2 ^ (e - 52)) * 2 ^ (e - 52) :=
          Nat.mul_le_mul_right _ hm

theorem jumpAux_exit (N : Nat) (f : Nat) (key : Nat) (b j : Int)
    (h : ¬ j < (N : Int)) : jumpAux N f key b j = b := by
  cases f with
  | zero => rfl
  | succ f => simp [jumpAux, h]

theorem jumpAux_lt (N : Nat) :
    ∀ f key (b j : Int), b < (N : Int) → jumpAux N f key b j < (N : Int) := by
  intro f
  induction f with
  | zero => intro key b j hb; exact hb
  | succ f ih =>
    intro key b j hb
    by_cases hj : j < (N : Int)
    · simp only [jumpAux, if_pos hj]
      exact ih _ j _ hj
    · simp only [jumpAux, if_neg hj]
      exact hb

theorem jumpAux_nonneg (N : Nat) :
    ∀ f key (b j : Int), 0 ≤ b → 0 ≤ j → 0 ≤ jumpAux N f key b j := by
  intro f
  induction f with
  | zero => intro key b j hb _; exact hb
  | succ f ih =>
    intro key b j hb hj0
    by_cases hj : j < (N : Int)
    · simp only [jumpAux, if_pos hj]
      exact ih _ j _ hj0 (Int.natCast_nonneg _)
    · simp only [jumpAux, if_neg hj]
      exact hb

/-- Any two sufficient fuels give the same result: from state `j` the loop
runs at most `N - j` more iterations because `j` strictly increases
(`rnDivFloor_ge`). -/
theorem jumpAux_fuel_stable (N : Nat) (hN : N < 2 ^ 32) :
    ∀ f1 key (b j : Int), ∀ f2, 0 ≤ j →
      N + 1 ≤ f1 + j.toNat → N + 1 ≤ f2 + j.toNat →
      jumpAux N f1 key b j = jumpAux N f2 key b j := by
  intro f1
  induction f1 with
  | zero =>
    intro key b j f2 hj0 hf1 hf2
    have hjex : ¬ j < (N : Int) := by omega
    rw [jumpAux_exit N 0 key b j hjex, jumpAux_exit N f2 key b j hjex]
  | succ f1 ih =>
    intro key b j f2 hj0 hf1 hf2
    by_cases hj : j < (N : Int)
    · obtain ⟨f2', rfl⟩ : ∃ f2', f2 = f2' + 1 := ⟨f2 - 1, by omega⟩
      simp only [jumpAux, if_pos hj]
      set key2 := (key * 2862933555777941757 + 1) % 2 ^ 64 with hkey2
      have hkey2lt : key2 < 2 ^ 64 := Nat.mod_lt _ (by norm_num)
      have hs2 : key2 / 2 ^ 33 + 1 ≤ 2 ^ 31 := by omega
      have hprog : j.toNat + 1 ≤ nextJ key2 (j.toNat + 1) := by
        simp only [nextJ]
        exact rnDivFloor_ge (j.toNat + 1) _ (by omega) (by omega) (by omega) hs2
      have htn : ((nextJ key2 (j.toNat + 1) : Nat) : Int).toNat
          = nextJ key2 (j.toNat + 1) := Int.toNat_natCast _
      exact ih key2 j _ f2' (Int.natCast_nonneg _) (by omega) (by omega)
    · rw [jumpAux_exit N (f1 + 1) key b j hj, jumpAux_exit N f2 key b j hj]

theorem jump_consistent_hash_range (key N : Nat) (h1 : 1 ≤ N) :
    0 ≤ jump_consistent_hash key N ∧ jump_consistent_hash key N < (N : Int) := by
  constructor
  · show 0 ≤ jumpAux N (N + 1) key (-1) 0
    have hguard : (0 : Int) < (N : Int) := by exact_mod_cast h1
    simp only [jumpAux, if_pos hguard]
    exact jumpAux_nonneg N _ _ 0 _ le_rfl (Int.natCast_nonneg _)
  · exact jumpAux_lt N _ key (-1) 0 (by omega)

/-! ### Label-key lemmas (claim C4) -/

theorem listCharLe_total : ∀ a b, listCharLe a b = true ∨ listCharLe b a = true := by
  intro a
  induction a with
  | nil => intro b; left; rfl
  | cons c cs ih =>
    intro b
    cases b with
    | nil => right; rfl
    | cons d ds =>
      rcases Nat.lt_trichotomy c.toNat d.toNat with h | h | h
      · left; simp [listCharLe, h]
      · have h1 : ¬ c.toNat < d.toNat := by omega
        have h2 : ¬ d.toNat < c.toNat := by omega
        simp only [listCharLe, if_neg h1, if_neg h2]
        exact ih ds
      · right; simp [listCharLe, h]

theorem listCharLe_trans :
    ∀ a b c, listCharLe a b = true → listCharLe b c = true → listCharLe a c = true := by
  intro a
  induction a with
  | nil => intro b c _ _; rfl
  | cons x xs ih =>
    intro b c hab hbc
    cases b with
    | nil => simp [listCharLe] at hab
    | cons y ys =>
      cases c with
      | nil => simp [listCharLe] at hbc
      | cons z zs =>
        simp only [listCharLe] at hab hbc ⊢
        split_ifs at hab hbc ⊢ <;>
          first
            | rfl
            | omega
            | (exact ih ys zs hab hbc)

theorem listCharLe_antisymm :
    ∀ a b, listCharLe a b = true → listCharLe b a = true → a = b := by
  intro a
  induction a with
  | nil =>
    intro b _ hba
    cases b with
    | nil => rfl
    | cons d ds => simp [listCharLe] at hba
  | cons c cs ih =>
    intro b hab hba
    cases b with
    | nil => simp [listCharLe] at hab
    | cons d ds =>
      rcases Nat.lt_trichotomy c.toNat d.toNat with h | h | h
      · have h2 : ¬ d.toNat < c.toNat := by omega
        simp [listCharLe, h, h2] at hba
      · have h1 : ¬ c.toNat < d.toNat := by omega
        have h2 : ¬ d.toNat < c.toNat := by omega
        simp only [listCharLe, if_neg h1, if_neg h2] at hab hba
        have hcd : c = d := by
          calc c = Char.ofNat c.toNat := (Char.ofNat_toNat c).symm
            _ = Char.ofNat d.toNat := by rw [h]
            _ = d := Char.ofNat_toNat d
        rw [hcd, ih ds hab hba]
      · have h1 : ¬ c.toNat < d.toNat := by omega
        simp [listCharLe, h, h1] at hab

/-- Sorting by the byte-lexicographic order maps permutation-equal lists to
the same result: the order is total, transitive and antisymmetric. -/
theorem insertionSort_perm_eq (p1 p2 : List (List Char)) (h : p1.Perm p2) :
    p1.insertionSort (fun a b => listCharLe a b)
      = p2.insertionSort (fun a b => listCharLe a b) := by
  haveI ht : IsTotal (List Char) (fun a b => listCharLe a b = true) := ⟨listCharLe_total⟩
  haveI htr : IsTrans (List Char) (fun a b => listCharLe a b = true) := ⟨listCharLe_trans⟩
  haveI ha : IsAntisymm (List Char) (fun a b => listCharLe a b = true) := ⟨listCharLe_antisymm⟩
  exact List.eq_of_perm_of_sorted
    ((List.perm_insertionSort _ p1).trans (h.trans (List.perm_insertionSort _ p2).symm))
    (List.sorted_insertionSort _ p1) (List.sorted_insertionSort _ p2)

theorem findIdxC_none (c : Char) : ∀ l, c ∉ l → findIdxC c l = none := by
  intro l
  induction l with
  | nil => intro _; rfl
  | cons a as ih =>
    intro h
    have h1 : ¬ a = c := fun hac => h (hac ▸ List.mem_cons_self a as)
    have h2 : c ∉ as := fun hm => h (List.mem_cons_of_mem a hm)
    simp [findIdxC, h1, ih h2]

theorem findIdxC_append (c : Char) :
    ∀ l1 l2, c ∉ l1 → findIdxC c (l1 ++ c :: l2) = some l1.length := by
  intro l1
  induction l1 with
  | nil => intro l2 _; simp [findIdxC]
  | cons a as ih =>
    intro l2 h
    have h1 : ¬ a = c := fun hac => h (hac ▸ List.mem_cons_self a as)
    have h2 : c ∉ as := fun hm => h (List.mem_cons_of_mem a hm)
    simp [findIdxC, h1, ih l2 h2]

theorem takeApp : ∀ (l1 l2 : List α) (k : Nat),
    (l1 ++ l2).take (l1.length + k) = l1 ++ l2.take k := by
  intro l1
  induction l1 with
  | nil => intro l2 k; simp
  | cons a as ih =>
    intro l2 k
    simp only [List.cons_append, List.length_cons]
    rw [show as.length + 1 + k = (as.length + k) + 1 by omega]
    simp [List.take_succ_cons, ih]

theorem dropApp : ∀ (l1 l2 : List α) (k : Nat),
    (l1 ++ l2).drop (l1.length + k) = l2.drop k := by
  intro l1
  induction l1 with
  | nil => intro l2 k; simp
  | cons a as ih =>
    intro l2 k
    simp only [List.cons_append, List.length_cons]
    rw [show as.length + 1 + k = (as.length + k) + 1 by omega]
    simp [List.drop_succ_cons, ih]

/-- Scanning a segment with no parity-0 comma appends it whole to the current
pair and carries its quote parity. -/
theorem splitTopAux_block :
    ∀ (p : List Char) (par : Bool) (rest cur : List Char) (acc : List (List Char)),
      noTopComma p par = true →
      splitTopAux (p ++ rest) par cur acc
        = splitTopAux rest (quoteParity p par) (cur ++ p) acc := by
  intro p
  induction p with
  | nil => intro par rest cur acc _; simp [quoteParity]
  | cons c cs ih =>
    intro par rest cur acc h
    simp only [noTopComma] at h
    simp only [List.cons_append, splitTopAux, quoteParity, List.append_eq]
    by_cases hq : c = quoteC
    · simp only [if_pos hq] at h ⊢
      rw [ih (!par) rest (cur ++ [c]) acc h]
      simp
    · simp only [if_neg hq] at h ⊢
      by_cases hcm : c = ',' ∧ par = false
      · rw [if_pos hcm] at h; exact absurd h (by simp)
      · have hb : (decide (c = ',') && decide (par = false)) = false := by
          rcases not_and_or.1 hcm with h1 | h1 <;> simp [h1]
        rw [if_neg hcm] at h
        simp only [hb, Bool.false_eq_true, if_false]
        rw [ih par rest (cur ++ [c]) acc h]
        simp

/-- Splitting the comma-join of well-formed pairs recovers the (trimmed)
pairs. -/
theorem splitTopAux_joinComma :
    ∀ (rest : List (List Char)) (p cur : List Char) (acc : List (List Char)),
      noTopComma p false = true → quoteParity p false = false →
      (∀ q ∈ rest, noTopComma q false = true ∧ quoteParity q false = false) →
      splitTopAux (joinComma (p :: rest)) false cur acc
        = acc ++ trimChars (cur ++ p) :: rest.map trimChars := by
  intro rest
  induction rest with
  | nil =>
    intro p cur acc hp hq _
    have hj : joinComma [p] = p ++ [] := by simp [joinComma]
    rw [hj, splitTopAux_block p false [] cur acc hp, hq]
    rfl
  | cons q rest ih =>
    intro p cur acc hp hqp hall
    have hj : joinComma (p :: q :: rest) = p ++ (',' :: joinComma (q :: rest)) := by
      simp [joinComma]
    rw [hj, splitTopAux_block p false _ cur acc hp, hqp]
    have hstep : ∀ (L C : List Char) (A : List (List Char)),
        splitTopAux (',' :: L) false C A = splitTopAux L false [] (A ++ [trimChars C]) := by
      intro L C A
      simp [splitTopAux, quoteC, Char.ofNat]
    rw [hstep]
    rw [ih q [] (acc ++ [trimChars (cur ++ p)]) (hall q (List.mem_cons_self q rest)).1
      (hall q (List.mem_cons_self q rest)).2
      (fun r hr => hall r (List.mem_cons_of_mem q hr))]
    simp

theorem joinComma_eq_nil :
    ∀ (p : List Char) (t : List (List Char)), joinComma (p :: t) = [] → p = [] ∧ t = [] := by
  intro p t
  cases t with
  | nil => intro h; simpa [joinComma] using h
  | cons q t =>
    intro h
    have : joinComma (p :: q :: t) = p ++ [','] ++ joinComma (q :: t) := by simp [joinComma]
    rw [this] at h
    simp at h

/-- `extract_sorted_label_key` on a line assembled from a name (no `{`), a
labels block, and a tail after the closing `}` (no `}`). -/
theorem key_of_built (name blk rest : List Char)
    (hn : lbraceC ∉ name) (hr : rbraceC ∉ rest) :
    extract_sorted_label_key (name ++ [lbraceC] ++ blk ++ [rbraceC] ++ rest)
      = if blk = [] then []
        else joinComma ((splitTopAux blk false [] []).insertionSort
               (fun a b => listCharLe a b)) := by
  have hline : name ++ [lbraceC] ++ blk ++ [rbraceC] ++ rest
      = name ++ lbraceC :: (blk ++ rbraceC :: rest) := by simp
  have hfind : findIdxC lbraceC (name ++ [lbraceC] ++ blk ++ [rbraceC] ++ rest)
      = some name.length := by
    rw [hline]; exact findIdxC_append lbraceC name _ hn
  have hrev : (name ++ [lbraceC] ++ blk ++ [rbraceC] ++ rest).reverse
      = rest.reverse ++ rbraceC :: (blk.reverse ++ [lbraceC] ++ name.reverse) := by
    simp
  have hlen : (name ++ [lbraceC] ++ blk ++ [rbraceC] ++ rest).length
      = name.length + 1 + blk.length + 1 + rest.length := by simp; omega
  have hrfind : rfindIdxC rbraceC (name ++ [lbraceC] ++ blk ++ [rbraceC] ++ rest)
      = some (name.length + 1 + blk.length) := by
    unfold rfindIdxC
    rw [hrev, findIdxC_append rbraceC rest.reverse _ (by simpa using hr)]
    show some _ = some _
    congr 1
    rw [hlen]
    simp only [List.length_reverse]
    omega
  have htd : (((name ++ [lbraceC] ++ blk ++ [rbraceC] ++ rest).take
        (name.length + 1 + blk.length)).drop (name.length + 1)) = blk := by
    have h1 : name ++ [lbraceC] ++ blk ++ [rbraceC] ++ rest
        = (name ++ [lbraceC] ++ blk) ++ ([rbraceC] ++ rest) := by simp
    have h2 : (name ++ [lbraceC] ++ blk).length = name.length + 1 + blk.length := by
      simp; omega
    have h3 : (name ++ [lbraceC] ++ blk ++ [rbraceC] ++ rest).take
        (name.length + 1 + blk.length) = name ++ [lbraceC] ++ blk := by
      rw [h1, ← h2]
      have := takeApp (name ++ [lbraceC] ++ blk) ([rbraceC] ++ rest) 0
      simpa using this
    rw [h3]
    have h4 : name ++ [lbraceC] ++ blk = (name ++ [lbraceC]) ++ blk := by simp
    have h5 : (name ++ [lbraceC]).length = name.length + 1 := by simp
    rw [h4, ← h5]
    have h6 := dropApp (name ++ [lbraceC]) blk 0
    simp only [Nat.add_zero, List.drop_zero] at h6
    exact h6
  simp only [extract_sorted_label_key, hfind, hrfind]
  rw [if_neg (by omega)]
  simp only [htd]

theorem key_no_lbrace (line : List Char) (h : lbraceC ∉ line) :
    extract_sorted_label_key line = [] := by
  simp [extract_sorted_label_key, findIdxC_none _ _ h]

/-- The canonical key of a line built from pairs: trim each pair, sort, and
re-join. -/
theorem key_formula (name rest : List Char) (pairs : List (List Char))
    (hn : lbraceC ∉ name) (hr : rbraceC ∉ rest)
    (hall : ∀ p ∈ pairs, noTopComma p false = true ∧ quoteParity p false = false) :
    extract_sorted_label_key (name ++ [lbraceC] ++ joinComma pairs ++ [rbraceC] ++ rest)
      = joinComma ((pairs.map trimChars).insertionSort (fun a b => listCharLe a b)) := by
  rw [key_of_built name _ rest hn hr]
  cases pairs with
  | nil => simp [joinComma]
  | cons p t =>
    by_cases hb : joinComma (p :: t) = []
    · obtain ⟨hp, ht⟩ := joinComma_eq_nil p t hb
      subst hp; subst ht
      simp [hb, joinComma, List.insertionSort, trimChars]
    · rw [if_neg hb]
      rw [splitTopAux_joinComma t p [] []
        (hall p (List.mem_cons_self p t)).1 (hall p (List.mem_cons_self p t)).2
        (fun q hq => hall q (List.mem_cons_of_mem p hq))]
      simp

/-! ### Merger lemmas (claim C5) -/

theorem updAt_length : ∀ (l : List α) (i : Nat) (f : α → α), (updAt l i f).length = l.length := by
  intro l
  induction l with
  | nil => intro i f; rfl
  | cons a as ih =>
    intro i f
    cases i with
    | zero => rfl
    | succ i => simp [updAt, ih]

theorem updAt_updAt : ∀ (l : List α) (i : Nat) (f g : α → α),
    updAt (updAt l i f) i g = updAt l i (fun a => g (f a)) := by
  intro l
  induction l with
  | nil => intro i f g; rfl
  | cons a as ih =>
    intro i f g
    cases i with
    | zero => rfl
    | succ i => simp [updAt, ih]

theorem updAt_congr : ∀ (l : List α) (i : Nat) (f g : α → α),
    (∀ a, f a = g a) → updAt l i f = updAt l i g := by
  intro l
  induction l with
  | nil => intro i f g _; rfl
  | cons a as ih =>
    intro i f g h
    cases i with
    | zero => simp [updAt, h a]
    | succ i => simp [updAt, ih i f g h]

theorem updAt_id : ∀ (l : List α) (i : Nat), updAt l i (fun a => a) = l := by
  intro l
  induction l with
  | nil => intro i; rfl
  | cons a as ih =>
    intro i
    cases i with
    | zero => rfl
    | succ i => simp [updAt, ih]

theorem findIdx?_some_spec :
    ∀ (l : List α) (p : α → Bool) (idx : Nat) (d : α),
      l.findIdx? p = some idx → idx < l.length ∧ p (l.getD idx d) = true := by
  intro l
  induction l with
  | nil => intro p idx d h; simp [List.findIdx?] at h
  | cons a as ih =>
    intro p idx d h
    rw [List.findIdx?_cons] at h
    by_cases hp : p a
    · simp [hp] at h
      subst h
      exact ⟨by simp, by simpa using hp⟩
    · simp [hp] at h
      obtain ⟨idx', hidx', rfl⟩ := h
      obtain ⟨h1, h2⟩ := ih p idx' d hidx'
      exact ⟨by simpa using h1, by simpa using h2⟩

theorem findIdx?_none_spec :
    ∀ (l : List α) (p : α → Bool), l.findIdx? p = none → ∀ a ∈ l, p a = false := by
  intro l
  induction l with
  | nil => intro p _ a ha; cases ha
  | cons a as ih =>
    intro p h b hb
    rw [List.findIdx?_cons] at h
    by_cases hp : p a
    · simp [hp] at h
    · rcases List.mem_cons.1 hb with rfl | hb2
      · simpa using hp
      · simp [hp] at h
        exact h b hb2

theorem countNK_cons (a : ParsedFamily) (t : List ParsedFamily) (n k : List Char) :
    countNK (a :: t) n k
      = (if a.name = n then countKeyIn a k else 0) + countNK t n k := by
  by_cases h : a.name = n <;> simp [countNK, h]

theorem countNK_append1 (m : List ParsedFamily) (f : ParsedFamily) (n k : List Char) :
    countNK (m ++ [f]) n k
      = countNK m n k + (if f.name = n then countKeyIn f k else 0) := by
  unfold countNK
  rw [List.filter_append, List.map_append, List.sum_append]
  congr 1
  by_cases h : f.name = n <;> simp [h, countNK]

theorem countNK_zero_of_no_name (m : List ParsedFamily) (n k : List Char)
    (h : ∀ f ∈ m, f.name ≠ n) : countNK m n k = 0 := by
  induction m with
  | nil => rfl
  | cons a t ih =>
    rw [countNK_cons, if_neg (h a (List.mem_cons_self a t)),
      ih (fun f hf => h f (List.mem_cons_of_mem a hf))]

theorem totalSamples_cons (a : ParsedFamily) (t : List ParsedFamily) :
    totalSamples (a :: t) = a.samples.length + totalSamples t := by
  simp [totalSamples]

theorem totalSamples_append1 (m : List ParsedFamily) (f : ParsedFamily) :
    totalSamples (m ++ [f]) = totalSamples m + f.samples.length := by
  simp [totalSamples]

theorem countNK_updAt_append :
    ∀ (m : List ParsedFamily) (idx : Nat) (ks : List Sample) (n k : List Char),
      idx < m.length →
      countNK (updAt m idx (fun fam => { fam with samples := fam.samples ++ ks })) n k
        = countNK m n k
          + (if (m.getD idx dfltFam).name = n
             then (ks.filter (fun s => extract_sorted_label_key s.raw_line = k)).length
             else 0) := by
  intro m
  induction m with
  | nil => intro idx ks n k h; simp at h
  | cons a t ih =>
    intro idx ks n k h
    cases idx with
    | zero =>
      show countNK ({ a with samples := a.samples ++ ks } :: t) n k = _
      rw [countNK_cons, countNK_cons]
      by_cases hn : a.name = n
      · simp only [hn, if_pos rfl, List.getD_cons_zero]
        simp [countKeyIn, List.filter_append, hn]
        omega
      · have : ({ a with samples := a.samples ++ ks } : ParsedFamily).name = a.name := rfl
        simp [this, hn]
    | succ i =>
      show countNK (a :: updAt t i _) n k = _
      rw [countNK_cons, countNK_cons, ih i ks n k (by simpa using h)]
      simp only [List.getD_cons_succ]
      omega

theorem totalSamples_updAt_append :
    ∀ (m : List ParsedFamily) (idx : Nat) (ks : List Sample),
      idx < m.length →
      totalSamples (updAt m idx (fun fam => { fam with samples := fam.samples ++ ks }))
        = totalSamples m + ks.length := by
  intro m
  induction m with
  | nil => intro idx ks h; simp at h
  | cons a t ih =>
    intro idx ks h
    cases idx with
    | zero =>
      show totalSamples ({ a with samples := a.samples ++ ks } :: t) = _
      rw [totalSamples_cons, totalSamples_cons]
      simp
      omega
    | succ i =>
      show totalSamples (a :: updAt t i _) = _
      rw [totalSamples_cons, totalSamples_cons, ih i ks (by simpa using h)]
      omega

theorem map_name_updAt (m : List ParsedFamily) (i : Nat) (g : ParsedFamily → ParsedFamily)
    (hg : ∀ a, (g a).name = a.name) :
    (updAt m i g).map (fun f => f.name) = m.map (fun f => f.name) := by
  induction m generalizing i with
  | nil => rfl
  | cons a t ih =>
    cases i with
    | zero => simp [updAt, hg a]
    | succ j => simp [updAt, ih j]

theorem any_name_eq :
    ∀ (m : List ParsedFamily) (n : List Char),
      m.any (fun f => f.name = n) = (m.map (fun f => f.name)).any (fun nm => nm = n) := by
  intro m n
  induction m with
  | nil => rfl
  | cons a t ih => simp [ih]

theorem containsName_congr (m1 m2 : List ParsedFamily) (n : List Char)
    (h : m1.map (fun f => f.name) = m2.map (fun f => f.name)) :
    containsName m1 n = containsName m2 n := by
  unfold containsName
  rw [any_name_eq, any_name_eq, h]

theorem containsName_append1 (m : List ParsedFamily) (f : ParsedFamily) (n : List Char) :
    containsName (m ++ [f]) n = (containsName m n || (f.name = n : Bool)) := by
  simp [containsName]

theorem getD_mem : ∀ (l : List α) (i : Nat) (d : α), i < l.length → l.getD i d ∈ l := by
  intro l
  induction l with
  | nil => intro i d h; simp at h
  | cons a t ih =>
    intro i d h
    cases i with
    | zero => simp
    | succ j => exact List.mem_cons_of_mem a (ih j d (by simpa using h))

theorem containsName_of_getD (m : List ParsedFamily) (idx : Nat) (h : idx < m.length) :
    containsName m (m.getD idx dfltFam).name = true := by
  unfold containsName
  rw [List.any_eq_true]
  exact ⟨m.getD idx dfltFam, getD_mem m idx dfltFam h, by simp⟩

theorem filter_single_name :
    ∀ (m : List ParsedFamily) (idx : Nat),
      (m.map (fun f => f.name)).Pairwise (· ≠ ·) → idx < m.length →
      m.filter (fun f => f.name = (m.getD idx dfltFam).name) = [m.getD idx dfltFam] := by
  intro m
  induction m with
  | nil => intro idx _ h; simp at h
  | cons a t ih =>
    intro idx hpw hlen
    rw [List.map_cons, List.pairwise_cons] at hpw
    obtain ⟨hhead, htail⟩ := hpw
    cases idx with
    | zero =>
      simp only [List.getD_cons_zero, List.filter_cons]
      rw [if_pos (by simp)]
      congr 1
      rw [List.filter_eq_nil_iff]
      intro b hb
      have : b.name ∈ t.map (fun f => f.name) := List.mem_map_of_mem _ hb
      simpa using (hhead b.name this).symm
    | succ i =>
      have hi : i < t.length := by simpa using hlen
      simp only [List.getD_cons_succ, List.filter_cons]
      rw [if_neg ?_, ih i htail hi]
      have : (t.getD i dfltFam).name ∈ t.map (fun f => f.name) :=
        List.mem_map_of_mem _ (getD_mem t i dfltFam hi)
      simpa using hhead _ this

theorem countNK_eq_countKeyIn (m : List ParsedFamily) (idx : Nat) (k : List Char)
    (hpw : (m.map (fun f => f.name)).Pairwise (· ≠ ·)) (hlen : idx < m.length) :
    countNK m (m.getD idx dfltFam).name k = countKeyIn (m.getD idx dfltFam) k := by
  unfold countNK
  rw [filter_single_name m idx hpw hlen]
  simp

theorem mem_keys_iff_countKeyIn (fam : ParsedFamily) (k : List Char) :
    k ∈ fam.samples.map (fun s => extract_sorted_label_key s.raw_line)
      ↔ countKeyIn fam k ≠ 0 := by
  unfold countKeyIn
  rw [List.mem_map]
  constructor
  · rintro ⟨s, hs, rfl⟩
    intro hlen
    rw [List.length_eq_zero, List.filter_eq_nil_iff] at hlen
    exact hlen s hs (by simp)
  · intro hlen
    rcases List.exists_mem_of_length_pos (Nat.pos_of_ne_zero hlen) with ⟨s, hs⟩
    rw [List.mem_filter] at hs
    exact ⟨s, hs.1, by simpa using hs.2⟩

theorem firstWinsCount_append1 (fams : List ParsedFamily) (f : ParsedFamily)
    (n k : List Char) :
    firstWinsCount (fams ++ [f]) n k
      = if firstWinsCount fams n k ≠ 0 then firstWinsCount fams n k
        else if f.name = n then countKeyIn f k else 0 := by
  induction fams with
  | nil =>
    simp only [List.nil_append, firstWinsCount]
    by_cases hn : f.name = n
    · simp [hn]
      intro h0
      omega
    · simp [hn, firstWinsCount]
  | cons a t ih =>
    simp only [List.cons_append, firstWinsCount]
    by_cases hn : a.name = n
    · by_cases hc : countKeyIn a k ≠ 0
      · simp [hn, hc]
      · simp [hn, hc, ih]
    · simp [hn, ih]

theorem firstWinsCount_zero_of_not_contains (fams : List ParsedFamily) (n k : List Char)
    (h : containsName fams n = false) : firstWinsCount fams n k = 0 := by
  induction fams with
  | nil => rfl
  | cons a t ih =>
    unfold containsName at h
    simp only [List.any_cons, Bool.or_eq_false_iff] at h
    unfold firstWinsCount
    rw [if_neg (by simpa using h.1), ih]
    unfold containsName
    exact h.2

theorem filter_length_compl (p : α → Bool) :
    ∀ (l : List α), (l.filter p).length + (l.filter (fun a => !(p a))).length = l.length := by
  intro l
  induction l with
  | nil => rfl
  | cons a t ih =>
    by_cases h : p a
    · simp [List.filter_cons, h]
      omega
    · simp only [List.filter_cons, h, Bool.false_eq_true, if_false,
        Bool.not_false, if_true]
      simp only [Bool.not_eq_true'] at *
      simp [h, List.length_cons]
      omega

/-- The inner sample loop of the merger: the merged vector gains exactly the
samples whose key is outside the frozen `existing_keys` set, and the
duplicate counter gains the number of the others. -/
theorem mergeInner_merged_dup (fname : List Char) (idx : Nat) (keys : List (List Char)) :
    ∀ (samples : List Sample) (m : List ParsedFamily) (d : Nat) (e : List (List Char)),
      (samples.foldl (mergeSampleStep fname idx keys) (m, d, e)).1
        = updAt m idx (fun fam => { fam with samples := (fam.samples
            ++ samples.filter (fun s => ¬ extract_sorted_label_key s.raw_line ∈ keys)) })
      ∧ (samples.foldl (mergeSampleStep fname idx keys) (m, d, e)).2.1
        = d + (samples.filter
            (fun s => extract_sorted_label_key s.raw_line ∈ keys)).length := by
  intro samples
  induction samples with
  | nil =>
    intro m d e
    constructor
    · show m = _
      rw [updAt_congr m idx _ (fun a => a) (by intro a; simp), updAt_id]
    · simp
  | cons s rest ih =>
    intro m d e
    by_cases hk : extract_sorted_label_key s.raw_line ∈ keys
    · have hstep : mergeSampleStep fname idx keys (m, d, e) s
          = (m, d + 1, if e.length < 3 then
              e ++ [if extract_sorted_label_key s.raw_line = [] then fname
                    else fname ++ [lbraceC] ++ extract_sorted_label_key s.raw_line ++ [rbraceC]]
            else e) := by
        simp [mergeSampleStep, hk]
      rw [List.foldl_cons, hstep]
      obtain ⟨ih1, ih2⟩ := ih m (d + 1) _
      constructor
      · rw [ih1]
        congr 1
        funext fam
        simp [List.filter_cons, hk]
      · rw [ih2]
        simp [List.filter_cons, hk]
        omega
    · have hstep : mergeSampleStep fname idx keys (m, d, e) s
          = (updAt m idx (fun f => { f with samples := f.samples ++ [s] }), d, e) := by
        simp [mergeSampleStep, hk]
      rw [List.foldl_cons, hstep]
      obtain ⟨ih1, ih2⟩ := ih (updAt m idx (fun f => { f with samples := f.samples ++ [s] })) d e
      constructor
      · rw [ih1, updAt_updAt]
        refine updAt_congr _ _ _ _ ?_
        intro a
        simp [List.filter_cons, hk]
      · rw [ih2]
        simp [List.filter_cons, hk]

/-- Examples never grow past three entries. -/
theorem mergeInner_examples (fname : List Char) (idx : Nat) (keys : List (List Char)) :
    ∀ (samples : List Sample) (m : List ParsedFamily) (d : Nat) (e : List (List Char)),
      e.length ≤ 3 →
      ((samples.foldl (mergeSampleStep fname idx keys) (m, d, e)).2.2).length ≤ 3 := by
  intro samples
  induction samples with
  | nil => intro m d e h; exact h
  | cons s rest ih =>
    intro m d e h
    rw [List.foldl_cons]
    by_cases hk : extract_sorted_label_key s.raw_line ∈ keys
    · have hstep : mergeSampleStep fname idx keys (m, d, e) s
          = (m, d + 1, if e.length < 3 then
              e ++ [if extract_sorted_label_key s.raw_line = [] then fname
                    else fname ++ [lbraceC] ++ extract_sorted_label_key s.raw_line ++ [rbraceC]]
            else e) := by
        simp [mergeSampleStep, hk]
      rw [hstep]
      refine ih _ _ _ ?_
      by_cases h3 : e.length < 3
      · simp [h3]
        omega
      · simp [h3]
        omega
    · have hstep : mergeSampleStep fname idx keys (m, d, e) s
          = (updAt m idx (fun f => { f with samples := f.samples ++ [s] }), d, e) := by
        simp [mergeSampleStep, hk]
      rw [hstep]
      exact ih _ _ _ h

theorem kept_dropped_length (keys : List (List Char)) :
    ∀ (samples : List Sample),
      (samples.filter (fun s => ¬ extract_sorted_label_key s.raw_line ∈ keys)).length
        + (samples.filter (fun s => extract_sorted_label_key s.raw_line ∈ keys)).length
      = samples.length := by
  intro samples
  induction samples with
  | nil => rfl
  | cons s rest ih =>
    by_cases hk : extract_sorted_label_key s.raw_line ∈ keys
    · have h1 : decide (¬ extract_sorted_label_key s.raw_line ∈ keys) = false := by
        simp [hk]
      have h2 : decide (extract_sorted_label_key s.raw_line ∈ keys) = true := by
        simp [hk]
      simp only [List.filter_cons, h1, h2, Bool.false_eq_true, if_false, if_true,
        List.length_cons]
      omega
    · have h1 : decide (¬ extract_sorted_label_key s.raw_line ∈ keys) = true := by
        simp [hk]
      have h2 : decide (extract_sorted_label_key s.raw_line ∈ keys) = false := by
        simp [hk]
      simp only [List.filter_cons, h1, h2, Bool.false_eq_true, if_false, if_true,
        List.length_cons]
      omega

/-- The running invariant of `merge_families`' fold: the merged counts follow
the first-entry-containing-the-key rule, samples are conserved up to the
duplicate counter, examples stay at three or fewer, names present are
exactly the input names, and merged names are pairwise distinct. -/
theorem merge_foldl_invariant (fams : List ParsedFamily) :
    (∀ n k, countNK (fams.foldl mergeStep ([], 0, [])).1 n k = firstWinsCount fams n k)
    ∧ (fams.foldl mergeStep ([], 0, [])).2.1
        + totalSamples (fams.foldl mergeStep ([], 0, [])).1 = totalSamples fams
    ∧ ((fams.foldl mergeStep ([], 0, [])).2.2).length ≤ 3
    ∧ (∀ n, containsName (fams.foldl mergeStep ([], 0, [])).1 n = containsName fams n)
    ∧ ((fams.foldl mergeStep ([], 0, [])).1.map (fun f => f.name)).Pairwise (· ≠ ·) := by
  induction fams using List.reverseRecOn with
  | nil =>
    refine ⟨?_, ?_, ?_, ?_, ?_⟩ <;>
      simp [countNK, firstWinsCount, totalSamples, containsName]
  | append_singleton fams f ih =>
    obtain ⟨ih1, ih2, ih3, ih4, ih5⟩ := ih
    rcases hMDE : fams.foldl mergeStep ([], 0, []) with ⟨M, D, E⟩
    rw [hMDE] at ih1 ih2 ih3 ih4 ih5
    simp only at ih1 ih2 ih3 ih4 ih5
    have hfold : (fams ++ [f]).foldl mergeStep ([], 0, []) = mergeStep (M, D, E) f := by
      rw [List.foldl_append, hMDE]
      rfl
    rw [hfold]
    cases hidx : M.findIdx? (fun fam => fam.name = f.name) with
    | none =>
      have hno : ∀ fam ∈ M, fam.name ≠ f.name := by
        intro fam hf
        have := findIdx?_none_spec M _ hidx fam hf
        simpa using this
      have hcont : containsName M f.name = false := by
        unfold containsName
        rw [List.any_eq_false]
        intro x hx
        simpa using hno x hx
      have hstep : mergeStep (M, D, E) f = (M ++ [f], D, E) := by
        simp [mergeStep, hidx]
      rw [hstep]
      refine ⟨?_, ?_, ih3, ?_, ?_⟩
      · intro n k
        show countNK (M ++ [f]) n k = firstWinsCount (fams ++ [f]) n k
        rw [countNK_append1, firstWinsCount_append1, ih1 n k]
        by_cases hn : f.name = n
        · subst hn
          have hz : firstWinsCount fams f.name k = 0 := by
            apply firstWinsCount_zero_of_not_contains
            rw [← ih4]
            exact hcont
          rw [← ih1 f.name k] at hz
          have hz2 : countNK M f.name k = 0 := countNK_zero_of_no_name _ _ _ hno
          rw [ih1 f.name k] at hz2
          simp [hz2]
        · rw [if_neg hn]
          by_cases hz : firstWinsCount fams n k = 0 <;> simp [hz]
      · show D + totalSamples (M ++ [f]) = totalSamples (fams ++ [f])
        rw [totalSamples_append1, totalSamples_append1, ← ih2]
        omega
      · intro n
        show containsName (M ++ [f]) n = containsName (fams ++ [f]) n
        rw [containsName_append1, containsName_append1, ih4 n]
      · show ((M ++ [f]).map (fun g => g.name)).Pairwise (· ≠ ·)
        rw [List.map_append, List.pairwise_append]
        refine ⟨ih5, by simp, ?_⟩
        intro a ha b hb
        simp only [List.map_cons, List.map_nil, List.mem_cons, List.not_mem_nil,
          or_false] at hb
        subst hb
        obtain ⟨fam, hfam, rfl⟩ := List.mem_map.1 ha
        exact hno fam hfam
    | some idx =>
      obtain ⟨hlt, hp⟩ := findIdx?_some_spec M _ idx dfltFam hidx
      have hname : (M.getD idx dfltFam).name = f.name := by simpa using hp
      have hstep : mergeStep (M, D, E) f
          = f.samples.foldl
              (mergeSampleStep f.name idx
                ((M.getD idx dfltFam).samples.map
                  (fun s => extract_sorted_label_key s.raw_line)))
              (M, D, E) := by
        simp [mergeStep, hidx]
      rw [hstep]
      obtain ⟨hm, hd⟩ := mergeInner_merged_dup f.name idx
        ((M.getD idx dfltFam).samples.map (fun s => extract_sorted_label_key s.raw_line))
        f.samples M D E
      have hex := mergeInner_examples f.name idx
        ((M.getD idx dfltFam).samples.map (fun s => extract_sorted_label_key s.raw_line))
        f.samples M D E ih3
      have hnames : ((f.samples.foldl
          (mergeSampleStep f.name idx
            ((M.getD idx dfltFam).samples.map
              (fun s => extract_sorted_label_key s.raw_line)))
          (M, D, E)).1).map (fun g => g.name) = M.map (fun g => g.name) := by
        rw [hm]
        exact map_name_updAt M idx _ (fun a => rfl)
      refine ⟨?_, ?_, hex, ?_, ?_⟩
      · intro n k
        rw [hm, countNK_updAt_append M idx _ n k hlt, hname, ih1 n k,
          firstWinsCount_append1]
        by_cases hn : f.name = n
        · subst hn
          have hMcount : countNK M f.name k = countKeyIn (M.getD idx dfltFam) k := by
            have h0 := countNK_eq_countKeyIn M idx k ih5 hlt
            rw [hname] at h0
            exact h0
          rw [← ih1 f.name k, hMcount]
          by_cases hk : k ∈ (M.getD idx dfltFam).samples.map
              (fun s => extract_sorted_label_key s.raw_line)
          · have hkc : countKeyIn (M.getD idx dfltFam) k ≠ 0 :=
              (mem_keys_iff_countKeyIn _ _).1 hk
            have hkf : ((f.samples.filter (fun s => ¬ extract_sorted_label_key s.raw_line
                ∈ (M.getD idx dfltFam).samples.map
                  (fun s => extract_sorted_label_key s.raw_line))).filter
                (fun s => extract_sorted_label_key s.raw_line = k)).length = 0 := by
              rw [List.length_eq_zero, List.filter_eq_nil_iff]
              intro s hs
              rw [List.mem_filter] at hs
              intro hsk
              apply absurd hs.2
              simp only [decide_not, Bool.not_eq_true', Bool.not_eq_false]
              have : extract_sorted_label_key s.raw_line = k := by simpa using hsk
              rw [this]
              simpa using hk
            rw [hkf, if_pos rfl, if_pos hkc]
            omega
          · have hkc : countKeyIn (M.getD idx dfltFam) k = 0 := by
              by_contra hne
              exact hk ((mem_keys_iff_countKeyIn _ _).2 hne)
            have hkf : ((f.samples.filter (fun s => ¬ extract_sorted_label_key s.raw_line
                ∈ (M.getD idx dfltFam).samples.map
                  (fun s => extract_sorted_label_key s.raw_line))).filter
                (fun s => extract_sorted_label_key s.raw_line = k)).length
                = countKeyIn f k := by
              unfold countKeyIn
              rw [List.filter_comm]
              congr 1
              rw [List.filter_eq_self]
              intro s hs
              rw [List.mem_filter] at hs
              have hsk : extract_sorted_label_key s.raw_line = k := by simpa using hs.2
              simp only [hsk, decide_eq_true_eq]
              intro hkk
              exact hk hkk
            rw [hkf, if_pos rfl, hkc]
            simp
        · rw [if_neg hn, if_neg hn]
          by_cases hz : firstWinsCount fams n k = 0 <;> simp [hz]
      · rw [hm, hd, totalSamples_updAt_append M idx _ hlt]
        have hc := kept_dropped_length
          ((M.getD idx dfltFam).samples.map (fun s => extract_sorted_label_key s.raw_line))
          f.samples
        rw [totalSamples_append1, ← ih2]
        omega
      · intro n
        rw [containsName_congr _ M n hnames, containsName_append1, ih4 n]
        by_cases hn : f.name = n
        · subst hn
          have h1 : containsName M f.name = true := by
            have := containsName_of_getD M idx hlt
            rw [hname] at this
            exact this
          rw [ih4 f.name] at h1
          simp [h1]
        · simp [hn]
      · rw [hnames]
        exact ih5

/-! ### Shard-builder lemmas (claims C7, C8) -/

theorem getD_updAt_eq : ∀ (l : List α) (i : Nat) (g : α → α) (d : α),
    i < l.length → (updAt l i g).getD i d = g (l.getD i d) := by
  intro l
  induction l with
  | nil => intro i g d h; simp at h
  | cons a t ih =>
    intro i g d h
    cases i with
    | zero => rfl
    | succ j => exact ih j g d (by simpa using h)

theorem getD_updAt_ne : ∀ (l : List α) (i j : Nat) (g : α → α) (d : α),
    i ≠ j → (updAt l i g).getD j d = l.getD j d := by
  intro l
  induction l with
  | nil => intro i j g d _; rfl
  | cons a t ih =>
    intro i j g d hij
    cases i with
    | zero =>
      cases j with
      | zero => exact absurd rfl hij
      | succ j' => rfl
    | succ i' =>
      cases j with
      | zero => rfl
      | succ j' => exact ih i' j' g d (by omega)

theorem map_updAt (F : α → β) (g : α → α) (G : β → β) (hFG : ∀ a, F (g a) = G (F a)) :
    ∀ (l : List α) (i : Nat), (updAt l i g).map F = updAt (l.map F) i G := by
  intro l
  induction l with
  | nil => intro i; rfl
  | cons a t ih =>
    intro i
    cases i with
    | zero => simp [updAt, hFG a]
    | succ j => simp [updAt, ih j]

theorem getD_map (F : α → β) : ∀ (l : List α) (i : Nat) (d : β) (d' : α),
    i < l.length → (l.map F).getD i d = F (l.getD i d') := by
  intro l
  induction l with
  | nil => intro i d d' h; simp at h
  | cons a t ih =>
    intro i d d' h
    cases i with
    | zero => rfl
    | succ j => exact ih j d d' (by simpa using h)

theorem sum_updAt_succ : ∀ (l : List Nat) (i : Nat),
    i < l.length → (updAt l i (· + 1)).sum = l.sum + 1 := by
  intro l
  induction l with
  | nil => intro i h; simp at h
  | cons a t ih =>
    intro i h
    cases i with
    | zero => simp [updAt]; omega
    | succ j =>
      simp only [updAt, List.sum_cons, ih j (by simpa using h)]
      omega

theorem sum_range_getD : ∀ (l : List Nat),
    ((List.range l.length).map (fun i => l.getD i 0)).sum = l.sum := by
  intro l
  induction l with
  | nil => rfl
  | cons a t ih =>
    rw [List.length_cons, List.range_succ_eq_map, List.map_cons, List.map_map,
      List.sum_cons, List.getD_cons_zero]
    congr 1

theorem gsStep_mem (hash : List Char → List Char → Nat) (N : Nat) (family : ParsedFamily)
    (evs : List (List SEvent)) (series : List Nat) (headers : List (Nat × List Char))
    (s : Sample) (h : (assignOf hash N s.raw_line, family.name) ∈ headers) :
    gsStep hash N family (evs, series, headers) s
      = (updAt evs (assignOf hash N s.raw_line)
           (fun t => t ++ [.sample family.name s.raw_line]),
         updAt series (assignOf hash N s.raw_line) (· + 1), headers) := by
  simp only [gsStep, assignOf] at h ⊢
  rw [if_pos h]

theorem gsStep_notmem (hash : List Char → List Char → Nat) (N : Nat) (family : ParsedFamily)
    (evs : List (List SEvent)) (series : List Nat) (headers : List (Nat × List Char))
    (s : Sample) (h : ¬ (assignOf hash N s.raw_line, family.name) ∈ headers) :
    gsStep hash N family (evs, series, headers) s
      = (updAt evs (assignOf hash N s.raw_line)
           (fun t => t ++ [.header family.name family.help_line family.type_line,
                           .sample family.name s.raw_line]),
         updAt series (assignOf hash N s.raw_line) (· + 1),
         headers ++ [(assignOf hash N s.raw_line, family.name)]) := by
  simp only [gsStep, assignOf] at h ⊢
  rw [if_neg h]
  refine congrArg (fun x => (x, _, _)) ?_
  rw [updAt_updAt]
  exact updAt_congr _ _ _ _ (fun t => by simp)

theorem bsStep_mem (hash : List Char → List Char → Nat) (N : Nat) (family : ParsedFamily)
    (texts : List (List Char)) (series : List Nat) (headers : List (Nat × List Char))
    (s : Sample) (h : (assignOf hash N s.raw_line, family.name) ∈ headers) :
    bsStep hash N family (texts, series, headers) s
      = (updAt texts (assignOf hash N s.raw_line) (fun t => t ++ s.raw_line),
         updAt series (assignOf hash N s.raw_line) (· + 1), headers) := by
  simp only [bsStep, assignOf] at h ⊢
  rw [if_pos h]

theorem bsStep_notmem (hash : List Char → List Char → Nat) (N : Nat) (family : ParsedFamily)
    (texts : List (List Char)) (series : List Nat) (headers : List (Nat × List Char))
    (s : Sample) (h : ¬ (assignOf hash N s.raw_line, family.name) ∈ headers) :
    bsStep hash N family (texts, series, headers) s
      = (updAt texts (assignOf hash N s.raw_line)
           (fun t => t ++ ((family.help_line.getD [] ++ family.type_line.getD [])
             ++ s.raw_line)),
         updAt series (assignOf hash N s.raw_line) (· + 1),
         headers ++ [(assignOf hash N s.raw_line, family.name)]) := by
  simp only [bsStep, assignOf] at h ⊢
  rw [if_neg h]
  refine congrArg (fun x => (x, _, _)) ?_
  rw [updAt_updAt]
  exact updAt_congr _ _ _ _ (fun t => by simp)

/-- Rendering one event block into text commutes with appending. -/
theorem render_append (l : List SEvent) (evl : List SEvent) :
    ((l ++ evl).map renderEvent).flatten
      = (l.map renderEvent).flatten ++ (evl.map renderEvent).flatten := by
  simp

/-- One step of the shard-text builder is the rendering of one step of the
event builder. -/
theorem link_step (hash : List Char → List Char → Nat) (N : Nat) (family : ParsedFamily)
    (evs : List (List SEvent)) (series : List Nat) (headers : List (Nat × List Char))
    (s : Sample) :
    bsStep hash N family (evs.map (fun l => (l.map renderEvent).flatten), series, headers) s
      = ((gsStep hash N family (evs, series, headers) s).1.map
           (fun l => (l.map renderEvent).flatten),
         (gsStep hash N family (evs, series, headers) s).2.1,
         (gsStep hash N family (evs, series, headers) s).2.2) := by
  by_cases h : (assignOf hash N s.raw_line, family.name) ∈ headers
  · rw [bsStep_mem hash N family _ series headers s h, gsStep_mem hash N family evs series headers s h]
    refine congrArg (fun x => (x, _, _)) ?_
    rw [map_updAt (fun l => (l.map renderEvent).flatten)
      (fun t => t ++ [.sample family.name s.raw_line]) (fun t => t ++ s.raw_line)
      (fun t => by simp [renderEvent])]
  · rw [bsStep_notmem hash N family _ series headers s h,
      gsStep_notmem hash N family evs series headers s h]
    refine congrArg (fun x => (x, _, _)) ?_
    rw [map_updAt (fun l => (l.map renderEvent).flatten)
      (fun t => t ++ [.header family.name family.help_line family.type_line,
                      .sample family.name s.raw_line])
      (fun t => t ++ ((family.help_line.getD [] ++ family.type_line.getD [])
        ++ s.raw_line))
      (fun t => by simp [renderEvent])]

theorem link_fold_samples (hash : List Char → List Char → Nat) (N : Nat)
    (family : ParsedFamily) :
    ∀ (samples : List Sample) (evs : List (List SEvent)) (series : List Nat)
      (headers : List (Nat × List Char)),
      samples.foldl (bsStep hash N family)
          (evs.map (fun l => (l.map renderEvent).flatten), series, headers)
        = ((samples.foldl (gsStep hash N family) (evs, series, headers)).1.map
             (fun l => (l.map renderEvent).flatten),
           (samples.foldl (gsStep hash N family) (evs, series, headers)).2.1,
           (samples.foldl (gsStep hash N family) (evs, series, headers)).2.2) := by
  intro samples
  induction samples with
  | nil => intro evs series headers; rfl
  | cons s rest ih =>
    intro evs series headers
    rw [List.foldl_cons, List.foldl_cons, link_step hash N family evs series headers s]
    exact ih (gsStep hash N family (evs, series, headers) s).1
      (gsStep hash N family (evs, series, headers) s).2.1
      (gsStep hash N family (evs, series, headers) s).2.2

theorem link_fold (hash : List Char → List Char → Nat) (N : Nat) :
    ∀ (fams : List ParsedFamily) (evs : List (List SEvent)) (series : List Nat)
      (headers : List (Nat × List Char)),
      bsFold hash N fams (evs.map (fun l => (l.map renderEvent).flatten), series, headers)
        = ((gsFold hash N fams (evs, series, headers)).1.map
             (fun l => (l.map renderEvent).flatten),
           (gsFold hash N fams (evs, series, headers)).2.1,
           (gsFold hash N fams (evs, series, headers)).2.2) := by
  intro fams
  induction fams with
  | nil => intro evs series headers; rfl
  | cons f rest ih =>
    intro evs series headers
    show List.foldl _ _ (f :: rest) = _
    rw [List.foldl_cons]
    have h1 := link_fold_samples hash N f f.samples evs series headers
    rw [h1]
    exact ih _ _ _

theorem assign_shard_lt (hash : List Char → List Char → Nat) (name lkey : List Char)
    (N : Nat) (h1 : 1 ≤ N) (h2 : N < 2 ^ 32) :
    assign_shard_from_parts hash name lkey N < N := by
  obtain ⟨hge, hlt⟩ := jump_consistent_hash_range (hash name lkey % 2 ^ 64) N h1
  unfold assign_shard_from_parts
  have hmod : jump_consistent_hash (hash name lkey % 2 ^ 64) N % (2 ^ 32 : Int)
      = jump_consistent_hash (hash name lkey % 2 ^ 64) N :=
    Int.emod_eq_of_lt hge
      (show jump_consistent_hash (hash name lkey % 2 ^ 64) N < (2 ^ 32 : Int) by omega)
  rw [hmod]
  omega

theorem assignOf_lt (hash : List Char → List Char → Nat) (N : Nat)
    (h1 : 1 ≤ N) (h2 : N < 2 ^ 32) (raw : List Char) : assignOf hash N raw < N :=
  assign_shard_lt hash _ _ N h1 h2

theorem getD_replicate (x d : α) : ∀ (N i : Nat), i < N → (List.replicate N x).getD i d = x := by
  intro N
  induction N with
  | zero => intro i h; omega
  | succ n ih =>
    intro i h
    cases i with
    | zero => rfl
    | succ j => exact ih j (by omega)

/-- Per-sample effect of the event builder on the sample events of each
shard, together with length preservation. -/
theorem gs_samples_filter (hash : List Char → List Char → Nat) (N : Nat)
    (family : ParsedFamily) (hA : ∀ raw, assignOf hash N raw < N) :
    ∀ (samples : List Sample) (evs : List (List SEvent)) (series : List Nat)
      (headers : List (Nat × List Char)),
      evs.length = N →
      (∀ i, i < N →
        sampleEventsOf
            ((samples.foldl (gsStep hash N family) (evs, series, headers)).1.getD i [])
          = sampleEventsOf (evs.getD i [])
            ++ (samples.filter (fun s => assignOf hash N s.raw_line = i)).map
                 (fun s => SEvent.sample family.name s.raw_line))
      ∧ (samples.foldl (gsStep hash N family) (evs, series, headers)).1.length = N := by
  intro samples
  induction samples with
  | nil =>
    intro evs series headers hlen
    exact ⟨fun i _ => by simp, hlen⟩
  | cons s rest ih =>
    intro evs series headers hlen
    rw [List.foldl_cons]
    by_cases hmem : (assignOf hash N s.raw_line, family.name) ∈ headers
    · rw [gsStep_mem hash N family evs series headers s hmem]
      obtain ⟨ih1, ih2⟩ := ih (updAt evs (assignOf hash N s.raw_line)
          (fun t => t ++ [.sample family.name s.raw_line]))
        (updAt series (assignOf hash N s.raw_line) (· + 1)) headers
        (by rw [updAt_length]; exact hlen)
      refine ⟨?_, ih2⟩
      intro i hi
      rw [ih1 i hi]
      by_cases hsid : assignOf hash N s.raw_line = i
      · subst hsid
        rw [getD_updAt_eq evs _ _ [] (hlen ▸ hA s.raw_line)]
        rw [List.filter_cons]
        simp only [sampleEventsOf, List.filter_append]
        simp [isHeaderEv]
      · rw [getD_updAt_ne evs _ i _ [] hsid]
        rw [List.filter_cons]
        simp [hsid]
    · rw [gsStep_notmem hash N family evs series headers s hmem]
      obtain ⟨ih1, ih2⟩ := ih (updAt evs (assignOf hash N s.raw_line)
          (fun t => t ++ [.header family.name family.help_line family.type_line,
                          .sample family.name s.raw_line]))
        (updAt series (assignOf hash N s.raw_line) (· + 1))
        (headers ++ [(assignOf hash N s.raw_line, family.name)])
        (by rw [updAt_length]; exact hlen)
      refine ⟨?_, ih2⟩
      intro i hi
      rw [ih1 i hi]
      by_cases hsid : assignOf hash N s.raw_line = i
      · subst hsid
        rw [getD_updAt_eq evs _ _ [] (hlen ▸ hA s.raw_line)]
        rw [List.filter_cons]
        simp only [sampleEventsOf, List.filter_append]
        simp [isHeaderEv]
      · rw [getD_updAt_ne evs _ i _ [] hsid]
        rw [List.filter_cons]
        simp [hsid]

theorem gsFold_cons (hash : List Char → List Char → Nat) (N : Nat) (f : ParsedFamily)
    (rest : List ParsedFamily) (st : GsState) :
    gsFold hash N (f :: rest) st
      = gsFold hash N rest (f.samples.foldl (gsStep hash N f) st) := rfl

/-- The event builder's per-shard sample events over a family list: exactly
the input samples hashed to each shard, in input order. -/
theorem gs_fold_filter (hash : List Char → List Char → Nat) (N : Nat)
    (hA : ∀ raw, assignOf hash N raw < N) :
    ∀ (fams : List ParsedFamily) (evs : List (List SEvent)) (series : List Nat)
      (headers : List (Nat × List Char)),
      evs.length = N →
      (∀ i, i < N →
        sampleEventsOf ((gsFold hash N fams (evs, series, headers)).1.getD i [])
          = sampleEventsOf (evs.getD i [])
            ++ fams.flatMap (fun f =>
                (f.samples.filter (fun s => assignOf hash N s.raw_line = i)).map
                  (fun s => SEvent.sample f.name s.raw_line)))
      ∧ (gsFold hash N fams (evs, series, headers)).1.length = N := by
  intro fams
  induction fams with
  | nil =>
    intro evs series headers hlen
    exact ⟨fun i _ => by simp [gsFold], hlen⟩
  | cons f rest ih =>
    intro evs series headers hlen
    rw [gsFold_cons]
    obtain ⟨h1, h2⟩ := gs_samples_filter hash N f hA f.samples evs series headers hlen
    obtain ⟨ih1, ih2⟩ := ih (f.samples.foldl (gsStep hash N f) (evs, series, headers)).1
      (f.samples.foldl (gsStep hash N f) (evs, series, headers)).2.1
      (f.samples.foldl (gsStep hash N f) (evs, series, headers)).2.2 h2
    refine ⟨?_, ih2⟩
    intro i hi
    rw [ih1 i hi, h1 i hi]
    simp [List.flatMap_cons]

/-- The per-shard series counters of the event builder track the number of
sample events in each shard. -/
theorem gs_samples_series (hash : List Char → List Char → Nat) (N : Nat)
    (family : ParsedFamily) (hA : ∀ raw, assignOf hash N raw < N) :
    ∀ (samples : List Sample) (evs : List (List SEvent)) (series : List Nat)
      (headers : List (Nat × List Char)),
      evs.length = N → series.length = N →
      (∀ i, i < N → series.getD i 0 = (sampleEventsOf (evs.getD i [])).length) →
      (∀ i, i < N →
        (samples.foldl (gsStep hash N family) (evs, series, headers)).2.1.getD i 0
          = (sampleEventsOf
              ((samples.foldl (gsStep hash N family) (evs, series, headers)).1.getD i [])).length)
      ∧ (samples.foldl (gsStep hash N family) (evs, series, headers)).2.1.length = N := by
  intro samples
  induction samples with
  | nil =>
    intro evs series headers hlen hslen hinv
    exact ⟨hinv, hslen⟩
  | cons s rest ih =>
    intro evs series headers hlen hslen hinv
    rw [List.foldl_cons]
    have hsid := hA s.raw_line
    by_cases hmem : (assignOf hash N s.raw_line, family.name) ∈ headers
    · rw [gsStep_mem hash N family evs series headers s hmem]
      refine ih _ _ _ (by rw [updAt_length]; exact hlen) (by rw [updAt_length]; exact hslen) ?_
      intro i hi
      by_cases hs : assignOf hash N s.raw_line = i
      · subst hs
        rw [getD_updAt_eq series _ _ 0 (hslen ▸ hsid),
          getD_updAt_eq evs _ _ [] (hlen ▸ hsid), hinv _ hsid]
        simp [sampleEventsOf, List.filter_append, isHeaderEv]
      · rw [getD_updAt_ne series _ i _ 0 hs, getD_updAt_ne evs _ i _ [] hs]
        exact hinv i hi
    · rw [gsStep_notmem hash N family evs series headers s hmem]
      refine ih _ _ _ (by rw [updAt_length]; exact hlen) (by rw [updAt_length]; exact hslen) ?_
      intro i hi
      by_cases hs : assignOf hash N s.raw_line = i
      · subst hs
        rw [getD_updAt_eq series _ _ 0 (hslen ▸ hsid),
          getD_updAt_eq evs _ _ [] (hlen ▸ hsid), hinv _ hsid]
        simp [sampleEventsOf, List.filter_append, isHeaderEv]
      · rw [getD_updAt_ne series _ i _ 0 hs, getD_updAt_ne evs _ i _ [] hs]
        exact hinv i hi

theorem gs_fold_series (hash : List Char → List Char → Nat) (N : Nat)
    (hA : ∀ raw, assignOf hash N raw < N) :
    ∀ (fams : List ParsedFamily) (evs : List (List SEvent)) (series : List Nat)
      (headers : List (Nat × List Char)),
      evs.length = N → series.length = N →
      (∀ i, i < N → series.getD i 0 = (sampleEventsOf (evs.getD i [])).length) →
      (∀ i, i < N →
        (gsFold hash N fams (evs, series, headers)).2.1.getD i 0
          = (sampleEventsOf
              ((gsFold hash N fams (evs, series, headers)).1.getD i [])).length)
      ∧ (gsFold hash N fams (evs, series, headers)).2.1.length = N := by
  intro fams
  induction fams with
  | nil =>
    intro evs series headers hlen hslen hinv
    exact ⟨hinv, hslen⟩
  | cons f rest ih =>
    intro evs series headers hlen hslen hinv
    rw [gsFold_cons]
    obtain ⟨h1, h2⟩ := gs_samples_series hash N f hA f.samples evs series headers hlen hslen hinv
    obtain ⟨hf1, hf2⟩ := gs_samples_filter hash N f hA f.samples evs series headers hlen
    exact ih _ _ _ hf2 h2 h1

/-- Each processed sample bumps exactly one series counter. -/
theorem gs_samples_sum (hash : List Char → List Char → Nat) (N : Nat)
    (family : ParsedFamily) (hA : ∀ raw, assignOf hash N raw < N) :
    ∀ (samples : List Sample) (evs : List (List SEvent)) (series : List Nat)
      (headers : List (Nat × List Char)),
      series.length = N →
      (samples.foldl (gsStep hash N family) (evs, series, headers)).2.1.sum
        = series.sum + samples.length := by
  intro samples
  induction samples with
  | nil => intro evs series headers _; simp
  | cons s rest ih =>
    intro evs series headers hslen
    rw [List.foldl_cons]
    have hsid := hA s.raw_line
    by_cases hmem : (assignOf hash N s.raw_line, family.name) ∈ headers
    · rw [gsStep_mem hash N family evs series headers s hmem,
        ih _ _ _ (by rw [updAt_length]; exact hslen),
        sum_updAt_succ series _ (hslen ▸ hsid)]
      simp
      omega
    · rw [gsStep_notmem hash N family evs series headers s hmem,
        ih _ _ _ (by rw [updAt_length]; exact hslen),
        sum_updAt_succ series _ (hslen ▸ hsid)]
      simp
      omega

theorem gs_samples_series_length (hash : List Char → List Char → Nat) (N : Nat)
    (family : ParsedFamily) :
    ∀ (samples : List Sample) (st : GsState),
      ((samples.foldl (gsStep hash N family) st).2.1.length = st.2.1.length)
      ∧ ((samples.foldl (gsStep hash N family) st).1.length = st.1.length) := by
  intro samples
  induction samples with
  | nil => intro st; exact ⟨rfl, rfl⟩
  | cons s rest ih =>
    intro st
    rw [List.foldl_cons]
    obtain ⟨h1, h2⟩ := ih (gsStep hash N family st s)
    rcases st with ⟨evs, series, headers⟩
    by_cases hmem : (assignOf hash N s.raw_line, family.name) ∈ headers
    · rw [gsStep_mem hash N family evs series headers s hmem] at h1 h2
      rw [gsStep_mem hash N family evs series headers s hmem]
      rw [h1, h2, updAt_length, updAt_length]
      exact ⟨rfl, rfl⟩
    · rw [gsStep_notmem hash N family evs series headers s hmem] at h1 h2
      rw [gsStep_notmem hash N family evs series headers s hmem]
      rw [h1, h2, updAt_length, updAt_length]
      exact ⟨rfl, rfl⟩

theorem gs_fold_sum (hash : List Char → List Char → Nat) (N : Nat)
    (hA : ∀ raw, assignOf hash N raw < N) :
    ∀ (fams : List ParsedFamily) (evs : List (List SEvent)) (series : List Nat)
      (headers : List (Nat × List Char)),
      series.length = N →
      (gsFold hash N fams (evs, series, headers)).2.1.sum
        = series.sum + totalSamples fams := by
  intro fams
  induction fams with
  | nil => intro evs series headers _; simp [gsFold, totalSamples]
  | cons f rest ih =>
    intro evs series headers hslen
    rw [gsFold_cons]
    have hlen2 := (gs_samples_series_length hash N f f.samples (evs, series, headers)).1
    have hsum := gs_samples_sum hash N f hA f.samples evs series headers hslen
    rcases hst : f.samples.foldl (gsStep hash N f) (evs, series, headers) with ⟨evs2, series2, headers2⟩
    rw [hst] at hlen2 hsum
    simp only at hlen2 hsum
    rw [ih evs2 series2 headers2 (by rw [hlen2]; exact hslen), hsum, totalSamples_cons]
    omega

theorem range_getD (N i : Nat) (h : i < N) : (List.range N).getD i 0 = i := by
  have hlen : i < (List.range N).length := by simpa using h
  rw [List.getD_eq_getElem (List.range N) 0 hlen]
  simp

theorem build_shards_getD (hash : List Char → List Char → Nat)
    (fams : List ParsedFamily) (N i : Nat) (hi : i < N) :
    (build_shards hash fams N).getD i ⟨[], 0, 0⟩
      = ⟨(bsFold hash N fams (List.replicate N [], List.replicate N 0, [])).1.getD i [],
         ((bsFold hash N fams
             (List.replicate N [], List.replicate N 0, [])).2.2.filter
           (fun p => p.1 = i)).length,
         (bsFold hash N fams (List.replicate N [], List.replicate N 0, [])).2.1.getD i 0⟩ := by
  simp only [build_shards]
  rw [getD_map _ (List.range N) i _ 0 (by simpa using hi), range_getD N i hi]

/-- Link between the real shard builder and the event builder, at the
initial state. -/
theorem bsFold_eq_render (hash : List Char → List Char → Nat) (N : Nat)
    (fams : List ParsedFamily) :
    bsFold hash N fams (List.replicate N [], List.replicate N 0, [])
      = ((gsFold hash N fams (List.replicate N [], List.replicate N 0, [])).1.map
           (fun l => (l.map renderEvent).flatten),
         (gsFold hash N fams (List.replicate N [], List.replicate N 0, [])).2.1,
         (gsFold hash N fams (List.replicate N [], List.replicate N 0, [])).2.2) := by
  have h := link_fold hash N fams (List.replicate N []) (List.replicate N 0) []
  rw [show ((List.replicate N ([] : List SEvent)).map
      (fun l => (l.map renderEvent).flatten)) = List.replicate N ([] : List Char) by
    simp] at h
  exact h

/-- C7: for every digest function, every family list and every shard count
`1 ≤ N < 2^32`, `build_shards` returns exactly `N` shards; the series counts
sum to the total number of input samples; each shard's series count equals
the number of input samples hashed to it; each shard's text is exactly the
rendering of its event list; and the sample events of shard `i` are exactly
the input samples whose line hashes to `i` — so every input sample's raw
line is appended to exactly the one shard `assignOf` hash selects for it, and
to no other. -/
theorem c7_build_shards_no_series_lost (hash : List Char → List Char → Nat)
    (fams : List ParsedFamily) (N : Nat) (h1 : 1 ≤ N) (h2 : N < 2 ^ 32) :
    (build_shards hash fams N).length = N
    ∧ ((build_shards hash fams N).map (fun sd => sd.series_count)).sum = totalSamples fams
    ∧ (∀ i, i < N →
        ((build_shards hash fams N).getD i ⟨[], 0, 0⟩).series_count
          = (assignedEvents hash N fams i).length)
    ∧ (∀ i, i < N →
        ((build_shards hash fams N).getD i ⟨[], 0, 0⟩).text
          = ((build_events hash fams N i).map renderEvent).flatten)
    ∧ (∀ i, i < N →
        sampleEventsOf (build_events hash fams N i) = assignedEvents hash N fams i) := by
  have hA : ∀ raw, assignOf hash N raw < N := assignOf_lt hash N h1 h2
  obtain ⟨hfil, hevlen⟩ := gs_fold_filter hash N hA fams
    (List.replicate N []) (List.replicate N 0) [] (by simp)
  obtain ⟨hser, hserlen⟩ := gs_fold_series hash N hA fams
    (List.replicate N []) (List.replicate N 0) [] (by simp) (by simp)
    (fun i hi => by
      rw [getD_replicate _ _ _ _ hi, getD_replicate _ _ _ _ hi]
      rfl)
  have hsum := gs_fold_sum hash N hA fams
    (List.replicate N []) (List.replicate N 0) [] (by simp)
  have hfil' : ∀ i, i < N →
      sampleEventsOf (build_events hash fams N i) = assignedEvents hash N fams i := by
    intro i hi
    show sampleEventsOf
        ((gsFold hash N fams (List.replicate N [], List.replicate N 0, [])).1.getD i [])
      = assignedEvents hash N fams i
    rw [hfil i hi, getD_replicate _ _ _ _ hi]
    rfl
  refine ⟨by simp [build_shards], ?_, ?_, ?_, hfil'⟩
  · simp only [build_shards, bsFold_eq_render hash N fams, List.map_map]
    have hcomp : ((fun sd => sd.series_count) ∘ (fun i =>
        (⟨((gsFold hash N fams (List.replicate N [], List.replicate N 0, [])).1.map
             (fun l => (l.map renderEvent).flatten),
           (gsFold hash N fams (List.replicate N [], List.replicate N 0, [])).2.1,
           (gsFold hash N fams (List.replicate N [], List.replicate N 0, [])).2.2).1.getD i [],
          (((gsFold hash N fams
              (List.replicate N [], List.replicate N 0, [])).2.2).filter
            (fun p => p.1 = i)).length,
          (gsFold hash N fams
            (List.replicate N [], List.replicate N 0, [])).2.1.getD i 0⟩ : ShardData)))
        = fun i => (gsFold hash N fams
            (List.replicate N [], List.replicate N 0, [])).2.1.getD i 0 := rfl
    have hs := sum_range_getD
      (gsFold hash N fams (List.replicate N [], List.replicate N 0, [])).2.1
    rw [hserlen] at hs
    rw [hcomp, hs, hsum]
    simp
  · intro i hi
    rw [build_shards_getD hash fams N i hi, bsFold_eq_render hash N fams]
    show (gsFold hash N fams (List.replicate N [], List.replicate N 0, [])).2.1.getD i 0 = _
    rw [hser i hi]
    congr 1
    exact hfil' i hi
  · intro i hi
    rw [build_shards_getD hash fams N i hi, bsFold_eq_render hash N fams]
    show ((gsFold hash N fams
        (List.replicate N [], List.replicate N 0, [])).1.map
          (fun l => (l.map renderEvent).flatten)).getD i [] = _
    rw [getD_map _ _ i _ [] (by rw [hevlen]; exact hi)]
    rfl

/-- Witness for `c7_build_shards_no_series_lost` at `hashZero`, the parsed
families of `up 1`/`up 0`, `N = 2`. -/
theorem c7_build_shards_witness :
    (1 ≤ 2 ∧ 2 < 2 ^ 32)
    ∧ (build_shards hashZero [upOneFam, upZeroFam] 2).length = 2
    ∧ ((build_shards hashZero [upOneFam, upZeroFam] 2).map
        (fun sd => sd.series_count)).sum = totalSamples [upOneFam, upZeroFam] :=
  ⟨⟨by decide, by decide⟩,
   (c7_build_shards_no_series_lost hashZero [upOneFam, upZeroFam] 2 (by decide) (by decide)).1,
   (c7_build_shards_no_series_lost hashZero [upOneFam, upZeroFam] 2 (by decide) (by decide)).2.1⟩

theorem countHeader_append (n : List Char) (l1 l2 : List SEvent) :
    countHeader n (l1 ++ l2) = countHeader n l1 + countHeader n l2 := by
  simp [countHeader, List.countP_append]

theorem countHeader_sample (n nm raw : List Char) :
    countHeader n [SEvent.sample nm raw] = 0 := by
  simp [countHeader, List.countP_cons, isHeaderEv]

theorem countHeader_header (n nm : List Char) (h t : Option (List Char)) :
    countHeader n [SEvent.header nm h t] = if nm = n then 1 else 0 := by
  by_cases hn : nm = n <;>
    simp [countHeader, List.countP_cons, isHeaderEv, eventName, hn]

/-- Header blocks are pushed into a shard exactly when the `(shard, name)`
pair enters the dedup set: the count per shard and name is 0 or 1, matching
set membership. -/
theorem gs_samples_hcount (hash : List Char → List Char → Nat) (N : Nat)
    (family : ParsedFamily) (hA : ∀ raw, assignOf hash N raw < N) :
    ∀ (samples : List Sample) (evs : List (List SEvent)) (series : List Nat)
      (headers : List (Nat × List Char)),
      evs.length = N →
      (∀ i n, i < N → countHeader n (evs.getD i []) = (if (i, n) ∈ headers then 1 else 0)) →
      (∀ i n, i < N →
        countHeader n ((samples.foldl (gsStep hash N family) (evs, series, headers)).1.getD i [])
          = (if (i, n) ∈ (samples.foldl (gsStep hash N family) (evs, series, headers)).2.2
             then 1 else 0)) := by
  intro samples
  induction samples with
  | nil => intro evs series headers _ hinv; exact hinv
  | cons s rest ih =>
    intro evs series headers hlen hinv
    rw [List.foldl_cons]
    have hsid := hA s.raw_line
    by_cases hmem : (assignOf hash N s.raw_line, family.name) ∈ headers
    · rw [gsStep_mem hash N family evs series headers s hmem]
      refine ih _ _ _ (by rw [updAt_length]; exact hlen) ?_
      intro i n hi
      by_cases hs : assignOf hash N s.raw_line = i
      · subst hs
        rw [getD_updAt_eq evs _ _ [] (hlen ▸ hsid), countHeader_append,
          countHeader_sample, hinv _ n hsid, Nat.add_zero]
      · rw [getD_updAt_ne evs _ i _ [] hs]
        exact hinv i n hi
    · rw [gsStep_notmem hash N family evs series headers s hmem]
      refine ih _ _ _ (by rw [updAt_length]; exact hlen) ?_
      intro i n hi
      by_cases hs : assignOf hash N s.raw_line = i
      · subst hs
        rw [getD_updAt_eq evs _ _ [] (hlen ▸ hsid)]
        have hcnt : countHeader n ((evs.getD (assignOf hash N s.raw_line) [])
            ++ [SEvent.header family.name family.help_line family.type_line,
                SEvent.sample family.name s.raw_line])
            = countHeader n (evs.getD (assignOf hash N s.raw_line) [])
              + (if family.name = n then 1 else 0) := by
          rw [show [SEvent.header family.name family.help_line family.type_line,
              SEvent.sample family.name s.raw_line]
              = [SEvent.header family.name family.help_line family.type_line]
                ++ [SEvent.sample family.name s.raw_line] from rfl,
            ← List.append_assoc, countHeader_append, countHeader_append,
            countHeader_sample, countHeader_header]
          omega
        rw [hcnt, hinv _ n hsid]
        by_cases hn : family.name = n
        · subst hn
          have hmem2 : (assignOf hash N s.raw_line, family.name)
              ∈ headers ++ [(assignOf hash N s.raw_line, family.name)] :=
            List.mem_append_right _ (by simp)
          rw [if_neg hmem, if_pos hmem2, if_pos rfl]
        · have hne : ((assignOf hash N s.raw_line, n))
              ≠ (assignOf hash N s.raw_line, family.name) := by
            intro hcon
            exact hn (by injection hcon with _ h2; exact h2.symm)
          rw [if_neg hn, Nat.add_zero]
          by_cases hin : (assignOf hash N s.raw_line, n) ∈ headers
          · have hin2 : (assignOf hash N s.raw_line, n)
                ∈ headers ++ [(assignOf hash N s.raw_line, family.name)] :=
              List.mem_append_left _ hin
            rw [if_pos hin, if_pos hin2]
          · have hin2 : ¬ (assignOf hash N s.raw_line, n)
                ∈ headers ++ [(assignOf hash N s.raw_line, family.name)] := by
              intro hcon
              rcases List.mem_append.1 hcon with h | h
              · exact hin h
              · simp only [List.mem_cons, List.not_mem_nil, or_false] at h
                exact hne h
            rw [if_neg hin, if_neg hin2]
      · rw [getD_updAt_ne evs _ i _ [] hs, hinv i n hi]
        have hne : ((i, n)) ≠ (assignOf hash N s.raw_line, family.name) := by
          intro hcon
          exact hs (by injection hcon with h1 _; exact h1.symm)
        by_cases hin : (i, n) ∈ headers
        · have hin2 : (i, n) ∈ headers ++ [(assignOf hash N s.raw_line, family.name)] :=
            List.mem_append_left _ hin
          rw [if_pos hin, if_pos hin2]
        · have hin2 : ¬ (i, n) ∈ headers ++ [(assignOf hash N s.raw_line, family.name)] := by
            intro hcon
            rcases List.mem_append.1 hcon with h | h
            · exact hin h
            · simp only [List.mem_cons, List.not_mem_nil, or_false] at h
              exact hne h
          rw [if_neg hin, if_neg hin2]

theorem gs_fold_hcount (hash : List Char → List Char → Nat) (N : Nat)
    (hA : ∀ raw, assignOf hash N raw < N) :
    ∀ (fams : List ParsedFamily) (evs : List (List SEvent)) (series : List Nat)
      (headers : List (Nat × List Char)),
      evs.length = N →
      (∀ i n, i < N → countHeader n (evs.getD i []) = (if (i, n) ∈ headers then 1 else 0)) →
      (∀ i n, i < N →
        countHeader n ((gsFold hash N fams (evs, series, headers)).1.getD i [])
          = (if (i, n) ∈ (gsFold hash N fams (evs, series, headers)).2.2 then 1 else 0)) := by
  intro fams
  induction fams with
  | nil => intro evs series headers _ hinv; exact hinv
  | cons f rest ih =>
    intro evs series headers hlen hinv
    rw [gsFold_cons]
    have h1 := gs_samples_hcount hash N f hA f.samples evs series headers hlen hinv
    have h2 := (gs_samples_filter hash N f hA f.samples evs series headers hlen).2
    rcases hst : f.samples.foldl (gsStep hash N f) (evs, series, headers)
      with ⟨evs2, series2, headers2⟩
    rw [hst] at h1 h2
    simp only at h1 h2
    exact ih evs2 series2 headers2 h2 h1

theorem famEvents_append (n : List Char) (l1 l2 : List SEvent) :
    famEvents n (l1 ++ l2) = famEvents n l1 ++ famEvents n l2 := by
  simp [famEvents]

theorem famEvents_sample_ne (n nm raw : List Char) (h : nm ≠ n) :
    famEvents n [SEvent.sample nm raw] = [] := by
  simp [famEvents, eventName, h]

theorem famEvents_header_ne (n nm : List Char) (hl tl : Option (List Char)) (h : nm ≠ n) :
    famEvents n [SEvent.header nm hl tl] = [] := by
  simp [famEvents, eventName, h]

theorem famEvents_own_sample (nm raw : List Char) :
    famEvents nm [SEvent.sample nm raw] = [SEvent.sample nm raw] := by
  simp [famEvents, eventName]

theorem famEvents_own_pair (nm raw : List Char) (hl tl : Option (List Char)) :
    famEvents nm [SEvent.header nm hl tl, SEvent.sample nm raw]
      = [SEvent.header nm hl tl, SEvent.sample nm raw] := by
  simp [famEvents, eventName]

/-- Processing a family of a different name leaves another name's events and
its header-set membership untouched. -/
theorem gs_samples_preserve (hash : List Char → List Char → Nat) (N : Nat)
    (family : ParsedFamily) (n : List Char) (hn : family.name ≠ n)
    (hA : ∀ raw, assignOf hash N raw < N) :
    ∀ (samples : List Sample) (evs : List (List SEvent)) (series : List Nat)
      (headers : List (Nat × List Char)),
      evs.length = N →
      (∀ i, i < N →
        famEvents n ((samples.foldl (gsStep hash N family) (evs, series, headers)).1.getD i [])
          = famEvents n (evs.getD i []))
      ∧ (∀ i, ((i, n) ∈ (samples.foldl (gsStep hash N family) (evs, series, headers)).2.2
          ↔ (i, n) ∈ headers)) := by
  intro samples
  induction samples with
  | nil => intro evs series headers _; exact ⟨fun i _ => rfl, fun i => Iff.rfl⟩
  | cons s rest ih =>
    intro evs series headers hlen
    rw [List.foldl_cons]
    have hsid := hA s.raw_line
    by_cases hmem : (assignOf hash N s.raw_line, family.name) ∈ headers
    · rw [gsStep_mem hash N family evs series headers s hmem]
      obtain ⟨ih1, ih2⟩ := ih (updAt evs (assignOf hash N s.raw_line)
          (fun t => t ++ [.sample family.name s.raw_line]))
        (updAt series (assignOf hash N s.raw_line) (· + 1)) headers
        (by rw [updAt_length]; exact hlen)
      refine ⟨?_, ih2⟩
      intro i hi
      rw [ih1 i hi]
      by_cases hs : assignOf hash N s.raw_line = i
      · subst hs
        rw [getD_updAt_eq evs _ _ [] (hlen ▸ hsid), famEvents_append,
          famEvents_sample_ne n family.name s.raw_line hn, List.append_nil]
      · rw [getD_updAt_ne evs _ i _ [] hs]
    · rw [gsStep_notmem hash N family evs series headers s hmem]
      obtain ⟨ih1, ih2⟩ := ih (updAt evs (assignOf hash N s.raw_line)
          (fun t => t ++ [.header family.name family.help_line family.type_line,
                          .sample family.name s.raw_line]))
        (updAt series (assignOf hash N s.raw_line) (· + 1))
        (headers ++ [(assignOf hash N s.raw_line, family.name)])
        (by rw [updAt_length]; exact hlen)
      constructor
      · intro i hi
        rw [ih1 i hi]
        by_cases hs : assignOf hash N s.raw_line = i
        · subst hs
          rw [getD_updAt_eq evs _ _ [] (hlen ▸ hsid)]
          rw [show [SEvent.header family.name family.help_line family.type_line,
              SEvent.sample family.name s.raw_line]
              = [SEvent.header family.name family.help_line family.type_line]
                ++ [SEvent.sample family.name s.raw_line] from rfl, ← List.append_assoc,
            famEvents_append, famEvents_append,
            famEvents_header_ne n family.name _ _ hn,
            famEvents_sample_ne n family.name s.raw_line hn]
          simp
        · rw [getD_updAt_ne evs _ i _ [] hs]
      · intro i
        rw [ih2 i, List.mem_append]
        constructor
        · rintro (h | h)
          · exact h
          · simp only [List.mem_cons, List.not_mem_nil, or_false] at h
            exact absurd (congrArg Prod.snd h).symm hn
        · intro h; exact Or.inl h

/-- Folding families none of which carries name `n` leaves `n`'s events and
header-set membership untouched. -/
theorem gs_fold_preserve (hash : List Char → List Char → Nat) (N : Nat)
    (n : List Char) (hA : ∀ raw, assignOf hash N raw < N) :
    ∀ (fams : List ParsedFamily), (∀ f ∈ fams, f.name ≠ n) →
    ∀ (evs : List (List SEvent)) (series : List Nat) (headers : List (Nat × List Char)),
      evs.length = N →
      (∀ i, i < N →
        famEvents n ((gsFold hash N fams (evs, series, headers)).1.getD i [])
          = famEvents n (evs.getD i []))
      ∧ (∀ i, ((i, n) ∈ (gsFold hash N fams (evs, series, headers)).2.2 ↔ (i, n) ∈ headers)) := by
  intro fams
  induction fams with
  | nil => intro _ evs series headers _; exact ⟨fun i _ => rfl, fun i => Iff.rfl⟩
  | cons f rest ih =>
    intro hnames evs series headers hlen
    rw [gsFold_cons]
    have hf : f.name ≠ n := hnames f (by simp)
    obtain ⟨p1, p2⟩ := gs_samples_preserve hash N f n hf hA f.samples evs series headers hlen
    have hlen2 := (gs_samples_filter hash N f hA f.samples evs series headers hlen).2
    rcases hst : f.samples.foldl (gsStep hash N f) (evs, series, headers)
      with ⟨evs2, series2, headers2⟩
    rw [hst] at p1 p2 hlen2
    simp only at p1 p2 hlen2
    obtain ⟨q1, q2⟩ := ih (fun g hg => hnames g (by simp [hg])) evs2 series2 headers2 hlen2
    exact ⟨fun i hi => by rw [q1 i hi, p1 i hi],
           fun i => by rw [q2 i, p2 i]⟩

/-- Once a family's header is in shard `i`'s dedup set, its sample loop only
appends sample events for shard `i`, and membership persists. -/
theorem gs_samples_after (hash : List Char → List Char → Nat) (N : Nat)
    (family : ParsedFamily) (hA : ∀ raw, assignOf hash N raw < N) :
    ∀ (samples : List Sample) (evs : List (List SEvent)) (series : List Nat)
      (headers : List (Nat × List Char)) (i : Nat), i < N →
      evs.length = N → (i, family.name) ∈ headers →
      famEvents family.name
          ((samples.foldl (gsStep hash N family) (evs, series, headers)).1.getD i [])
        = famEvents family.name (evs.getD i [])
          ++ (samples.filter (fun s => assignOf hash N s.raw_line = i)).map
               (fun s => SEvent.sample family.name s.raw_line)
      ∧ (i, family.name) ∈ (samples.foldl (gsStep hash N family) (evs, series, headers)).2.2 := by
  intro samples
  induction samples with
  | nil =>
    intro evs series headers i _ _ hmem
    exact ⟨by simp, hmem⟩
  | cons s rest ih =>
    intro evs series headers i hi hlen hmem
    rw [List.foldl_cons]
    have hsid := hA s.raw_line
    by_cases hm : (assignOf hash N s.raw_line, family.name) ∈ headers
    · rw [gsStep_mem hash N family evs series headers s hm]
      obtain ⟨ih1, ih2⟩ := ih (updAt evs (assignOf hash N s.raw_line)
          (fun t => t ++ [.sample family.name s.raw_line]))
        (updAt series (assignOf hash N s.raw_line) (· + 1)) headers i hi
        (by rw [updAt_length]; exact hlen) hmem
      refine ⟨?_, ih2⟩
      rw [ih1, List.filter_cons]
      by_cases hs : assignOf hash N s.raw_line = i
      · subst hs
        rw [getD_updAt_eq evs _ _ [] (hlen ▸ hsid), famEvents_append, famEvents_own_sample]
        simp
      · rw [getD_updAt_ne evs _ i _ [] hs]
        simp [hs]
    · have hsne : assignOf hash N s.raw_line ≠ i := by
        intro hc
        exact hm (by rw [hc]; exact hmem)
      rw [gsStep_notmem hash N family evs series headers s hm]
      obtain ⟨ih1, ih2⟩ := ih (updAt evs (assignOf hash N s.raw_line)
          (fun t => t ++ [.header family.name family.help_line family.type_line,
                          .sample family.name s.raw_line]))
        (updAt series (assignOf hash N s.raw_line) (· + 1))
        (headers ++ [(assignOf hash N s.raw_line, family.name)]) i hi
        (by rw [updAt_length]; exact hlen) (List.mem_append_left _ hmem)
      refine ⟨?_, ih2⟩
      rw [ih1, List.filter_cons, getD_updAt_ne evs _ i _ [] hsne]
      simp [hsne]

/-- A family's sample loop on a shard whose dedup set does not yet hold the
family: the shard gains nothing when no sample hashes to it, and gains the
header block followed by exactly its samples otherwise; the dedup set gains
the pair exactly when a sample hashed to the shard. -/
theorem gs_samples_fam (hash : List Char → List Char → Nat) (N : Nat)
    (family : ParsedFamily) (hA : ∀ raw, assignOf hash N raw < N) :
    ∀ (samples : List Sample) (evs : List (List SEvent)) (series : List Nat)
      (headers : List (Nat × List Char)) (i : Nat), i < N →
      evs.length = N → ¬ (i, family.name) ∈ headers →
      famEvents family.name
          ((samples.foldl (gsStep hash N family) (evs, series, headers)).1.getD i [])
        = famEvents family.name (evs.getD i [])
          ++ (if (samples.filter (fun s => assignOf hash N s.raw_line = i)) = [] then []
              else SEvent.header family.name family.help_line family.type_line
                :: (samples.filter (fun s => assignOf hash N s.raw_line = i)).map
                     (fun s => SEvent.sample family.name s.raw_line))
      ∧ ((i, family.name) ∈ (samples.foldl (gsStep hash N family) (evs, series, headers)).2.2
          ↔ (samples.filter (fun s => assignOf hash N s.raw_line = i)) ≠ []) := by
  intro samples
  induction samples with
  | nil =>
    intro evs series headers i _ _ hmem
    refine ⟨by simp, ?_⟩
    simp only [List.foldl_nil, List.filter_nil]
    exact ⟨fun h => absurd h hmem, fun h => absurd rfl h⟩
  | cons s rest ih =>
    intro evs series headers i hi hlen hmem
    rw [List.foldl_cons]
    have hsid := hA s.raw_line
    by_cases hs : assignOf hash N s.raw_line = i
    · subst hs
      rw [gsStep_notmem hash N family evs series headers s hmem]
      obtain ⟨a1, a2⟩ := gs_samples_after hash N family hA rest
        (updAt evs (assignOf hash N s.raw_line)
          (fun t => t ++ [.header family.name family.help_line family.type_line,
                          .sample family.name s.raw_line]))
        (updAt series (assignOf hash N s.raw_line) (· + 1))
        (headers ++ [(assignOf hash N s.raw_line, family.name)])
        (assignOf hash N s.raw_line) hsid
        (by rw [updAt_length]; exact hlen)
        (List.mem_append_right _ (by simp))
      have hfe : List.filter (fun s2 => decide (assignOf hash N s2.raw_line
          = assignOf hash N s.raw_line)) (s :: rest)
          = s :: List.filter (fun s2 => decide (assignOf hash N s2.raw_line
              = assignOf hash N s.raw_line)) rest := by
        simp [List.filter_cons]
      have hne2 : s :: List.filter (fun s2 => decide (assignOf hash N s2.raw_line
          = assignOf hash N s.raw_line)) rest ≠ [] := List.cons_ne_nil _ _
      refine ⟨?_, ?_⟩
      · rw [a1, hfe, if_neg hne2]
        rw [getD_updAt_eq evs _ _ [] (hlen ▸ hsid), famEvents_append, famEvents_own_pair]
        simp
      · rw [hfe]
        exact ⟨fun _ => hne2, fun _ => a2⟩
    · by_cases hm : (assignOf hash N s.raw_line, family.name) ∈ headers
      · rw [gsStep_mem hash N family evs series headers s hm]
        obtain ⟨ih1, ih2⟩ := ih (updAt evs (assignOf hash N s.raw_line)
            (fun t => t ++ [.sample family.name s.raw_line]))
          (updAt series (assignOf hash N s.raw_line) (· + 1)) headers i hi
          (by rw [updAt_length]; exact hlen) hmem
        refine ⟨?_, ?_⟩
        · rw [ih1, List.filter_cons, getD_updAt_ne evs _ i _ [] hs]
          simp [hs]
        · rw [ih2, List.filter_cons]
          simp [hs]
      · rw [gsStep_notmem hash N family evs series headers s hm]
        obtain ⟨ih1, ih2⟩ := ih (updAt evs (assignOf hash N s.raw_line)
            (fun t => t ++ [.header family.name family.help_line family.type_line,
                            .sample family.name s.raw_line]))
          (updAt series (assignOf hash N s.raw_line) (· + 1))
          (headers ++ [(assignOf hash N s.raw_line, family.name)]) i hi
          (by rw [updAt_length]; exact hlen)
          (by
            intro hc
            rcases List.mem_append.1 hc with h | h
            · exact hmem h
            · simp only [List.mem_cons, List.not_mem_nil, or_false] at h
              exact hs (congrArg Prod.fst h).symm)
        refine ⟨?_, ?_⟩
        · rw [ih1, List.filter_cons, getD_updAt_ne evs _ i _ [] hs]
          simp [hs]
        · rw [ih2, List.filter_cons]
          simp [hs]

/-- Under pairwise-distinct family names, shard `i`'s events for a family
`g` of the input are empty when no sample of `g` hashed to `i`, and exactly
`g`'s header block followed by its samples hashed to `i` otherwise. -/
theorem gs_fold_fam (hash : List Char → List Char → Nat) (N : Nat)
    (hA : ∀ raw, assignOf hash N raw < N) :
    ∀ (fams : List ParsedFamily),
      (fams.map (fun f => f.name)).Pairwise (fun a b => a ≠ b) →
    ∀ (g : ParsedFamily), g ∈ fams →
    ∀ (evs : List (List SEvent)) (series : List Nat) (headers : List (Nat × List Char))
      (i : Nat), i < N → evs.length = N →
      famEvents g.name (evs.getD i []) = [] → ¬ (i, g.name) ∈ headers →
      famEvents g.name ((gsFold hash N fams (evs, series, headers)).1.getD i [])
        = if (g.samples.filter (fun s => assignOf hash N s.raw_line = i)) = [] then []
          else SEvent.header g.name g.help_line g.type_line
            :: (g.samples.filter (fun s => assignOf hash N s.raw_line = i)).map
                 (fun s => SEvent.sample g.name s.raw_line) := by
  intro fams
  induction fams with
  | nil => intro _ g hg; exact absurd hg (List.not_mem_nil g)
  | cons f rest ih =>
    intro hpw g hg evs series headers i hi hlen hfam hmem
    simp only [List.map_cons, List.pairwise_cons, List.mem_map] at hpw
    rw [gsFold_cons]
    rcases List.mem_cons.1 hg with hgf | hgr
    · subst hgf
      obtain ⟨b1, b2⟩ := gs_samples_fam hash N g hA g.samples evs series headers i hi hlen hmem
      have hlen2 := (gs_samples_filter hash N g hA g.samples evs series headers hlen).2
      have hrest : ∀ f2 ∈ rest, f2.name ≠ g.name := by
        intro f2 h2 hc
        exact hpw.1 f2.name ⟨f2, h2, rfl⟩ hc.symm
      rcases hst : g.samples.foldl (gsStep hash N g) (evs, series, headers)
        with ⟨evs2, series2, headers2⟩
      rw [hst] at b1 b2 hlen2
      simp only at b1 b2 hlen2
      obtain ⟨q1, _⟩ := gs_fold_preserve hash N g.name hA rest hrest evs2 series2 headers2 hlen2
      rw [q1 i hi, b1, hfam, List.nil_append]
    · have hf : f.name ≠ g.name := hpw.1 g.name ⟨g, hgr, rfl⟩
      obtain ⟨p1, p2⟩ := gs_samples_preserve hash N f g.name hf hA f.samples evs series headers hlen
      have hlen2 := (gs_samples_filter hash N f hA f.samples evs series headers hlen).2
      rcases hst : f.samples.foldl (gsStep hash N f) (evs, series, headers)
        with ⟨evs2, series2, headers2⟩
      rw [hst] at p1 p2 hlen2
      simp only at p1 p2 hlen2
      exact ih hpw.2 g hgr evs2 series2 headers2 i hi hlen2
        (by rw [p1 i hi]; exact hfam) (fun hc => hmem ((p2 i).1 hc))

/-! ### Sample-identity lemmas for the merger (claim C5) -/

theorem countKeyIn_eq_length (f : ParsedFamily) (k : List Char) :
    countKeyIn f k = (samplesOfKey f k).length := rfl

theorem samplesOfKey_ne_nil_iff (fam : ParsedFamily) (k : List Char) :
    k ∈ fam.samples.map (fun s => extract_sorted_label_key s.raw_line)
      ↔ samplesOfKey fam k ≠ [] := by
  rw [mem_keys_iff_countKeyIn, countKeyIn_eq_length]
  exact not_congr List.length_eq_zero

theorem samplesNK_cons (a : ParsedFamily) (t : List ParsedFamily) (n k : List Char) :
    samplesNK (a :: t) n k
      = (if a.name = n then samplesOfKey a k else []) ++ samplesNK t n k := by
  by_cases h : a.name = n <;> simp [samplesNK, h]

theorem samplesNK_append1 (m : List ParsedFamily) (f : ParsedFamily) (n k : List Char) :
    samplesNK (m ++ [f]) n k
      = samplesNK m n k ++ (if f.name = n then samplesOfKey f k else []) := by
  unfold samplesNK
  rw [List.filter_append, List.flatMap_append]
  congr 1
  by_cases h : f.name = n <;> simp [h]

theorem samplesNK_nil_of_no_name (m : List ParsedFamily) (n k : List Char)
    (h : ∀ f ∈ m, f.name ≠ n) : samplesNK m n k = [] := by
  induction m with
  | nil => rfl
  | cons a t ih =>
    rw [samplesNK_cons, if_neg (h a (List.mem_cons_self a t)),
      ih (fun f hf => h f (List.mem_cons_of_mem a hf)), List.nil_append]

theorem samplesNK_eq_samplesOfKey (m : List ParsedFamily) (idx : Nat) (k : List Char)
    (hpw : (m.map (fun f => f.name)).Pairwise (· ≠ ·)) (hlen : idx < m.length) :
    samplesNK m (m.getD idx dfltFam).name k = samplesOfKey (m.getD idx dfltFam) k := by
  unfold samplesNK
  rw [filter_single_name m idx hpw hlen]
  simp

theorem samplesNK_updAt_ne :
    ∀ (m : List ParsedFamily) (idx : Nat) (g : ParsedFamily → ParsedFamily)
      (n k : List Char),
      (∀ a, (g a).name = a.name) → (m.getD idx dfltFam).name ≠ n →
      samplesNK (updAt m idx g) n k = samplesNK m n k := by
  intro m
  induction m with
  | nil => intro idx g n k _ _; rfl
  | cons a t ih =>
    intro idx g n k hg hne
    cases idx with
    | zero =>
      have hne2 : a.name ≠ n := by simpa using hne
      show samplesNK (g a :: t) n k = samplesNK (a :: t) n k
      rw [samplesNK_cons, samplesNK_cons, hg a, if_neg hne2, if_neg hne2]
    | succ i =>
      show samplesNK (a :: updAt t i g) n k = samplesNK (a :: t) n k
      rw [samplesNK_cons, samplesNK_cons, ih i g n k hg (by simpa using hne)]

theorem samplesNK_updAt_append_eq (m : List ParsedFamily) (idx : Nat) (ks : List Sample)
    (k : List Char) (hpw : (m.map (fun f => f.name)).Pairwise (· ≠ ·))
    (hlt : idx < m.length) :
    samplesNK (updAt m idx (fun fam => { fam with samples := fam.samples ++ ks }))
        ((m.getD idx dfltFam).name) k
      = samplesOfKey (m.getD idx dfltFam) k
        ++ ks.filter (fun s => extract_sorted_label_key s.raw_line = k) := by
  have hpw2 : ((updAt m idx (fun fam => { fam with samples := fam.samples ++ ks })).map
      (fun f => f.name)).Pairwise (· ≠ ·) := by
    rw [map_name_updAt m idx (fun fam => { fam with samples := fam.samples ++ ks })
      (fun a => rfl)]
    exact hpw
  have hlen2 : idx
      < (updAt m idx (fun fam => { fam with samples := fam.samples ++ ks })).length := by
    rw [updAt_length]
    exact hlt
  have h := samplesNK_eq_samplesOfKey _ idx k hpw2 hlen2
  rw [getD_updAt_eq m idx _ dfltFam hlt] at h
  have hname : ({ m.getD idx dfltFam with
      samples := (m.getD idx dfltFam).samples ++ ks } : ParsedFamily).name
      = (m.getD idx dfltFam).name := rfl
  rw [hname] at h
  rw [h]
  show ((m.getD idx dfltFam).samples ++ ks).filter
      (fun s => extract_sorted_label_key s.raw_line = k) = _
  rw [List.filter_append]
  rfl

theorem firstWinsSamples_append1 (fams : List ParsedFamily) (f : ParsedFamily)
    (n k : List Char) :
    firstWinsSamples (fams ++ [f]) n k
      = if firstWinsSamples fams n k ≠ [] then firstWinsSamples fams n k
        else if f.name = n then samplesOfKey f k else [] := by
  induction fams with
  | nil =>
    simp only [List.nil_append, firstWinsSamples]
    by_cases hn : f.name = n
    · simp only [hn, if_pos rfl, ne_eq, not_true_eq_false, if_false]
      by_cases hsk : samplesOfKey f k = [] <;> simp [hsk]
    · simp [hn, firstWinsSamples]
  | cons a t ih =>
    simp only [List.cons_append, firstWinsSamples]
    by_cases hn : a.name = n
    · by_cases hc : samplesOfKey a k ≠ []
      · simp [hn, hc]
      · simp [hn, hc, ih]
    · simp [hn, ih]

/-- The merged vector's `(n, k)` samples are, verbatim and in order, the
`(n, k)` samples of the first input entry of name `n` that contains key `k`:
first-wins at the level of the samples themselves, not just their number. -/
theorem merge_foldl_samples (fams : List ParsedFamily) :
    ∀ n k, samplesNK (fams.foldl mergeStep ([], 0, [])).1 n k
      = firstWinsSamples fams n k := by
  induction fams using List.reverseRecOn with
  | nil => intro n k; rfl
  | append_singleton fams f ih =>
    obtain ⟨_, _, _, _, ih5⟩ := merge_foldl_invariant fams
    rcases hMDE : fams.foldl mergeStep ([], 0, []) with ⟨M, D, E⟩
    rw [hMDE] at ih ih5
    simp only at ih ih5
    have hfold : (fams ++ [f]).foldl mergeStep ([], 0, []) = mergeStep (M, D, E) f := by
      rw [List.foldl_append, hMDE]
      rfl
    intro n k
    rw [hfold]
    cases hidx : M.findIdx? (fun fam => fam.name = f.name) with
    | none =>
      have hno : ∀ fam ∈ M, fam.name ≠ f.name := by
        intro fam hf
        have := findIdx?_none_spec M _ hidx fam hf
        simpa using this
      have hstep : mergeStep (M, D, E) f = (M ++ [f], D, E) := by
        simp [mergeStep, hidx]
      rw [hstep]
      show samplesNK (M ++ [f]) n k = _
      rw [samplesNK_append1, firstWinsSamples_append1]
      by_cases hn : f.name = n
      · subst hn
        have hz : samplesNK M f.name k = [] :=
          samplesNK_nil_of_no_name M f.name k hno
        rw [← ih f.name k, hz]
        simp
      · rw [if_neg hn, ← ih n k, List.append_nil]
        by_cases hz : samplesNK M n k = [] <;> simp [hz]
    | some idx =>
      obtain ⟨hlt, hp⟩ := findIdx?_some_spec M _ idx dfltFam hidx
      have hname : (M.getD idx dfltFam).name = f.name := by simpa using hp
      have hstep : mergeStep (M, D, E) f
          = f.samples.foldl
              (mergeSampleStep f.name idx
                ((M.getD idx dfltFam).samples.map
                  (fun s => extract_sorted_label_key s.raw_line)))
              (M, D, E) := by
        simp [mergeStep, hidx]
      rw [hstep]
      obtain ⟨hm, _⟩ := mergeInner_merged_dup f.name idx
        ((M.getD idx dfltFam).samples.map (fun s => extract_sorted_label_key s.raw_line))
        f.samples M D E
      rw [hm, firstWinsSamples_append1]
      have hMS : samplesNK M f.name k = samplesOfKey (M.getD idx dfltFam) k := by
        have h0 := samplesNK_eq_samplesOfKey M idx k ih5 hlt
        rw [hname] at h0
        exact h0
      have hfw : firstWinsSamples fams f.name k = samplesOfKey (M.getD idx dfltFam) k := by
        rw [← ih f.name k, hMS]
      by_cases hn : f.name = n
      · subst hn
        have hupd := samplesNK_updAt_append_eq M idx
          (f.samples.filter (fun s => ¬ extract_sorted_label_key s.raw_line
            ∈ (M.getD idx dfltFam).samples.map
              (fun s => extract_sorted_label_key s.raw_line)))
          k ih5 hlt
        rw [hname] at hupd
        rw [hupd, hfw]
        by_cases hk : k ∈ (M.getD idx dfltFam).samples.map
            (fun s => extract_sorted_label_key s.raw_line)
        · have hne : samplesOfKey (M.getD idx dfltFam) k ≠ [] :=
            (samplesOfKey_ne_nil_iff _ _).1 hk
          have hkf : ((f.samples.filter (fun s => ¬ extract_sorted_label_key s.raw_line
              ∈ (M.getD idx dfltFam).samples.map
                (fun s => extract_sorted_label_key s.raw_line))).filter
              (fun s => extract_sorted_label_key s.raw_line = k)) = [] := by
            rw [List.filter_eq_nil_iff]
            intro s hs
            rw [List.mem_filter] at hs
            intro hsk
            apply absurd hs.2
            simp only [decide_not, Bool.not_eq_true', Bool.not_eq_false]
            have : extract_sorted_label_key s.raw_line = k := by simpa using hsk
            rw [this]
            simpa using hk
          rw [hkf, List.append_nil, if_pos hne]
        · have hEmpty : samplesOfKey (M.getD idx dfltFam) k = [] := by
            by_contra hc
            exact hk ((samplesOfKey_ne_nil_iff _ _).2 hc)
          have hkf : ((f.samples.filter (fun s => ¬ extract_sorted_label_key s.raw_line
              ∈ (M.getD idx dfltFam).samples.map
                (fun s => extract_sorted_label_key s.raw_line))).filter
              (fun s => extract_sorted_label_key s.raw_line = k))
              = samplesOfKey f k := by
            unfold samplesOfKey
            rw [List.filter_comm]
            rw [List.filter_eq_self]
            intro s hs
            rw [List.mem_filter] at hs
            have hsk : extract_sorted_label_key s.raw_line = k := by simpa using hs.2
            simp only [hsk, decide_eq_true_eq]
            intro hkk
            exact hk hkk
          rw [hkf, hEmpty, List.nil_append]
          simp
      · have hne2 : (M.getD idx dfltFam).name ≠ n := by
          rw [hname]
          exact hn
        rw [samplesNK_updAt_ne M idx
          (fun fam => { fam with samples := (fam.samples
            ++ f.samples.filter (fun s => ¬ extract_sorted_label_key s.raw_line
                 ∈ (M.getD idx dfltFam).samples.map
                   (fun s => extract_sorted_label_key s.raw_line))) })
          n k (fun a => rfl) hne2, if_neg hn, ← ih n k]
        by_cases hz : samplesNK M n k = [] <;> simp [hz]

/-! ### Claim theorems -/

/-- C1: the claim says that after a scrape cycle with at least one success
the published shards come from the merger's output, duplicates across
sources being dropped before `build_shards` runs.  The code (scraper.rs:61-68)
never invokes `merge_families`: it passes the concatenated families straight
to `build_shards`.  At the failing input — two successful sources exposing
`up 1\n` and `up 0\n`, one shard — the published shard carries both samples
(`series_count = 2`), while the merger's output would have carried only the
first (`series_count = 1`). -/
theorem c1_publish_skips_merger :
    scrape_cycle_publish hashZero
        [some (scrape_success_families ("up 1\n").toList),
         some (scrape_success_families ("up 0\n").toList)] 1 []
      = [⟨("up 1\nup 0\n").toList, 1, 2⟩]
    ∧ build_shards hashZero
        (merge_families
          (scrape_success_families ("up 1\n").toList
            ++ scrape_success_families ("up 0\n").toList)).1 1
      = [⟨("up 1\n").toList, 1, 1⟩] := by decide

/-- C2: the claim says the scrape cycle injects each source's extra labels
into every sample line before shard building, so the labels reach the
sample's LabelKey.  The code's success path (scraper.rs:106-110) only parses
the body and never calls `inject_labels`; with source body `up 1\n` and
`extra_labels = {cluster="prod"}` the line handed to `build_shards` is the
uninjected `up 1\n`, whose LabelKey is empty — while `inject_labels` (which
the spec's pipeline requires) would have produced
`up{cluster="prod"} 1\n` with LabelKey `cluster="prod"`. -/
theorem c2_scrape_does_not_inject :
    scrape_success_families ("up 1\n").toList = [upOneFam]
    ∧ extract_sorted_label_key ("up 1\n").toList = []
    ∧ inject_labels [upOneFam] [(("cluster").toList, ("prod").toList)]
        = some [⟨("up").toList, none, none, [⟨("up\x7bcluster=\"prod\"\x7d 1\n").toList⟩]⟩]
    ∧ extract_sorted_label_key ("up\x7bcluster=\"prod\"\x7d 1\n").toList
        = ("cluster=\"prod\"").toList
    ∧ ("up 1\n").toList ≠ ("up\x7bcluster=\"prod\"\x7d 1\n").toList := by decide

/-- C5 counterexample: the claim says that *whenever* a (family name,
LabelKey) pair appears more than once in the input, every later sample with
that pair is dropped and counted.  In `c5fams` the pair `("m", a="1")`
appears twice — both inside the second occurrence of family `m` — and
`merge_families` keeps both samples and reports `duplicate_count = 0`:
`existing_keys` is computed once per incoming family, before its sample loop
(parser.rs:182-187), so duplicates within one occurrence are not detected. -/
theorem c5_within_occurrence_duplicates_kept :
    countNK c5fams (("m").toList) (("a=\"1\"").toList) = 2
    ∧ (merge_families c5fams).2.duplicate_count = 0
    ∧ (merge_families c5fams).1
        = [⟨("m").toList, none, none,
            [⟨("m 1\n").toList⟩, ⟨("m\x7ba=\"1\"\x7d 1\n").toList⟩,
             ⟨("m\x7ba=\"1\"\x7d 2\n").toList⟩]⟩] := by decide

/-- C5 amended: first-wins deduplication acts across family entries — for
every input list and every (family name, LabelKey) pair, the merged output's
samples of that pair are, *verbatim and in order*, the samples of that pair
found in the first input entry of that name that contains the pair (so
samples with the pair in later entries are dropped, while duplicates inside
a single entry, including the first, are all kept); consequently their
count follows the same first-entry rule; `duplicate_count` equals the number
of dropped samples (total input samples minus total merged samples), and
`examples` holds at most three entries. -/
theorem c5_merge_first_wins_characterization (fams : List ParsedFamily) :
    (∀ n k, samplesNK (merge_families fams).1 n k = firstWinsSamples fams n k)
    ∧ (∀ n k, countNK (merge_families fams).1 n k = firstWinsCount fams n k)
    ∧ (merge_families fams).2.duplicate_count + totalSamples (merge_families fams).1
        = totalSamples fams
    ∧ (merge_families fams).2.examples.length ≤ 3 := by
  obtain ⟨h1, h2, h3, _, _⟩ := merge_foldl_invariant fams
  exact ⟨merge_foldl_samples fams, h1, h2, h3⟩

/-- C6: the claim (and the spec, and the doc comment of `merge_families`
itself) says the first source to *declare* HELP/TYPE wins, so a later
occurrence's declaration is kept when the first occurrence declared none.
The code never touches `merged[idx].help_line`/`type_line` when merging a
repeated family name (parser.rs:180-203), so at the failing input — first
occurrence of `m` with no HELP/TYPE, second occurrence declaring both — the
merged family keeps `none` for both. -/
theorem c6_later_help_type_discarded :
    (c6fams.getD 1 dfltFam).help_line = some (("# HELP m x\n").toList)
    ∧ (c6fams.getD 1 dfltFam).type_line = some (("# TYPE m gauge\n").toList)
    ∧ (merge_families c6fams).1.length = 1
    ∧ ((merge_families c6fams).1.getD 0 dfltFam).help_line = none
    ∧ ((merge_families c6fams).1.getD 0 dfltFam).type_line = none := by decide

/-- C10: the claim says `parse_families` followed by `inject_labels` never
panics, in particular on a sample line containing `{` with no matching `}`.
In `inject_into_line` (parser.rs:69-93) such a line makes
`content.rfind('}')` fall back to `content.len()`, and the slice
`&content[close + 1..]` then starts past the end of the string — an
out-of-bounds byte index, which panics.  On body `up{bad 1\n` with
`extra_labels = {cluster="prod"}` the pipeline aborts (modelled as `none`). -/
theorem c10_inject_into_line_panics :
    parse_families ("up\x7bbad 1\n").toList
      = [⟨("up").toList, none, none, [⟨("up\x7bbad 1\n").toList⟩]⟩]
    ∧ inject_labels (parse_families ("up\x7bbad 1\n").toList)
        [(("cluster").toList, ("prod").toList)] = none
    ∧ inject_into_line ("up\x7bbad 1\n").toList (("cluster=\"prod\"").toList) = none := by
  decide

/-- C3: for every metric name, label key and shard count `1 ≤ N < 2^32`
(`num_shards` is a u32), and for every 64-bit digest function,
`assign_shard_from_parts` terminates and returns a shard id in `[0, N)`, and
repeated calls agree.  Termination of the Rust `while` loop is expressed by
fuel-independence: every fuel of at least `N + 1` (the loop runs at most `N`
iterations, since `j` strictly increases) yields the very same result as the
embedding's chosen fuel.  Determinism is the last conjunct; the embedded
function is pure, so it holds by reflexivity — the Rust function reads no
state besides its arguments. -/
theorem c3_assign_shard_terminates_in_range_deterministic
    (hash : List Char → List Char → Nat) (name label_key : List Char)
    (N : Nat) (h1 : 1 ≤ N) (h2 : N < 2 ^ 32) :
    assign_shard_from_parts hash name label_key N < N
    ∧ (∀ fuel, N + 1 ≤ fuel →
        jumpAux N fuel (hash name label_key % 2 ^ 64) (-1) 0
          = jump_consistent_hash (hash name label_key % 2 ^ 64) N)
    ∧ assign_shard_from_parts hash name label_key N
        = assign_shard_from_parts hash name label_key N := by
  obtain ⟨hge, hlt⟩ := jump_consistent_hash_range (hash name label_key % 2 ^ 64) N h1
  refine ⟨?_, ?_, rfl⟩
  · unfold assign_shard_from_parts
    have hmod : jump_consistent_hash (hash name label_key % 2 ^ 64) N % (2 ^ 32 : Int)
        = jump_consistent_hash (hash name label_key % 2 ^ 64) N :=
      Int.emod_eq_of_lt hge
        (show jump_consistent_hash (hash name label_key % 2 ^ 64) N < (2 ^ 32 : Int) by omega)
    rw [hmod]
    omega
  · intro fuel hf
    exact jumpAux_fuel_stable N h2 fuel _ (-1) 0 (N + 1) le_rfl (by omega) (by omega)

/-- Witness for `c3_assign_shard_terminates_in_range_deterministic` at the
digest function `hashZero`, name `up`, empty label key, `N = 4`. -/
theorem c3_assign_shard_witness :
    (1 ≤ 4 ∧ 4 < 2 ^ 32)
    ∧ assign_shard_from_parts hashZero (("up").toList) [] 4 < 4 :=
  ⟨⟨by decide, by decide⟩,
   (c3_assign_shard_terminates_in_range_deterministic hashZero (("up").toList) [] 4
     (by decide) (by decide)).1⟩

/-- C4: `extract_sorted_label_key` is invariant under reordering of the label
pairs of a line's label block — for any two lines
`name{p₁,…,pₖ}rest` whose pair lists are permutations of each other (each
pair having balanced quotes and no top-level comma, which `k="v"` pairs
satisfy), the canonical keys coincide — commas inside double-quoted values do
not split (the two quoted examples evaluate as the spec says), and a line
without labels (no `{`) yields the empty key. -/
theorem c4_label_key_canonicalization :
    (∀ (name rest : List Char) (pairs1 pairs2 : List (List Char)),
      lbraceC ∉ name → rbraceC ∉ rest →
      (∀ p ∈ pairs1, noTopComma p false = true ∧ quoteParity p false = false) →
      pairs1.Perm pairs2 →
      extract_sorted_label_key (name ++ [lbraceC] ++ joinComma pairs1 ++ [rbraceC] ++ rest)
        = extract_sorted_label_key (name ++ [lbraceC] ++ joinComma pairs2 ++ [rbraceC] ++ rest))
    ∧ extract_sorted_label_key (("req\x7bz=\"1\",a=\"2\",m=\"3\"\x7d 1\n").toList)
        = (("a=\"2\",m=\"3\",z=\"1\"").toList)
    ∧ extract_sorted_label_key (("req\x7ba=\"2\",m=\"3\",z=\"1\"\x7d 1\n").toList)
        = (("a=\"2\",m=\"3\",z=\"1\"").toList)
    ∧ extract_sorted_label_key (("req\x7bpath=\"/a,b\",method=\"GET\"\x7d 1\n").toList)
        = (("method=\"GET\",path=\"/a,b\"").toList)
    ∧ (∀ line, lbraceC ∉ line → extract_sorted_label_key line = []) := by
  refine ⟨?_, by decide, by decide, by decide, fun line h => key_no_lbrace line h⟩
  intro name rest p1 p2 hn hr hall hperm
  have hall2 : ∀ p ∈ p2, noTopComma p false = true ∧ quoteParity p false = false :=
    fun p hp => hall p (hperm.mem_iff.mpr hp)
  rw [key_formula name rest p1 hn hr hall, key_formula name rest p2 hn hr hall2]
  congr 1
  exact insertionSort_perm_eq _ _ (hperm.map trimChars)

/-- Witness for `c4_label_key_canonicalization`: the permutation statement at
`req{z="1",a="2",m="3"}` versus `req{a="2",m="3",z="1"}`, and the empty-key
statement at `up 1`. -/
theorem c4_label_key_witness :
    extract_sorted_label_key
        ((("req").toList) ++ [lbraceC]
          ++ joinComma [("z=\"1\"").toList, ("a=\"2\"").toList, ("m=\"3\"").toList]
          ++ [rbraceC] ++ ((" 1\n").toList))
      = extract_sorted_label_key
        ((("req").toList) ++ [lbraceC]
          ++ joinComma [("a=\"2\"").toList, ("m=\"3\"").toList, ("z=\"1\"").toList]
          ++ [rbraceC] ++ ((" 1\n").toList))
    ∧ extract_sorted_label_key (("up 1\n").toList) = [] :=
  ⟨c4_label_key_canonicalization.1 (("req").toList) ((" 1\n").toList)
      [("z=\"1\"").toList, ("a=\"2\"").toList, ("m=\"3\"").toList]
      [("a=\"2\"").toList, ("m=\"3\"").toList, ("z=\"1\"").toList]
      (by decide) (by decide) (by decide) (by decide),
   c4_label_key_canonicalization.2.2.2.2 (("up 1\n").toList) (by decide)⟩

/-- C9 counterexample: the claim says that before the first successful scrape
every requested shard id gets 503 "metrics not yet available", but
`shard_handler` (server.rs:34-44) checks `id >= num_shards` first: with an
empty snapshot and `num_shards = 4`, requesting shard 99 returns 404 with the
out-of-range body, not 503. -/
theorem c9_out_of_range_is_404_even_before_scrape :
    shard_handler 99 4 [] false
      = ⟨404, ("shard 99 not found, valid range is 0..4").toList, false⟩
    ∧ (shard_handler 99 4 [] false).status ≠ 503
    ∧ (shard_handler 99 4 [] false).body ≠ ("metrics not yet available").toList := by
  decide

/-- C9 amended: before the first successful scrape (empty shard vector),
`GET /metrics/shard/{id}` returns 503 "metrics not yet available" for every
*in-range* shard id (`id < num_shards`); out-of-range ids get the 404 of the
range check, which runs first. -/
theorem c9_in_range_503_before_first_scrape
    (id num_shards : Nat) (g : Bool) (h : id < num_shards) :
    shard_handler id num_shards [] g
      = ⟨503, ("metrics not yet available").toList, false⟩ := by
  unfold shard_handler
  rw [if_neg (by omega), if_pos rfl]

/-- Witness for `c9_in_range_503_before_first_scrape` at `id = 0`,
`num_shards = 4`. -/
theorem c9_in_range_503_witness :
    0 < 4 ∧ shard_handler 0 4 [] false
      = ⟨503, ("metrics not yet available").toList, false⟩ :=
  ⟨by decide, c9_in_range_503_before_first_scrape 0 4 false (by decide)⟩

/-- C8 counterexample: the claim says every shard that received a sample of a
family contains that family's HELP and TYPE lines when the family has them.
The header-dedup set of `build_shards` (state.rs:54-63) is keyed by family
*name*: on `c6fams` — two family entries both named `m`, the first without
HELP/TYPE, the second declaring both — the single shard receives the second
entry's sample, yet its text carries no HELP line at all, because the header
block was emitted (empty) for the first entry and the name `m` was already in
the dedup set when the second entry's sample arrived. -/
theorem c8_duplicate_name_loses_help :
    build_shards hashZero c6fams 1
      = [⟨("m 1\nm\x7ba=\"9\"\x7d 2\n").toList, 1, 2⟩]
    ∧ (c6fams.getD 1 dfltFam).help_line = some (("# HELP m x\n").toList)
    ∧ (c6fams.getD 1 dfltFam).samples.filter
        (fun s => assignOf hashZero 1 s.raw_line = 0) ≠ []
    ∧ ¬ List.IsInfix (("# HELP m x\n").toList)
        ((build_shards hashZero c6fams 1).getD 0 ⟨[], 0, 0⟩).text := by
  decide

/-- C8 amended: for `1 ≤ N < 2^32` and input families with pairwise-distinct
names, in every shard each family name's header block appears at most once;
for every input family `g`, the events of shard `i` belonging to `g.name` are
empty when no sample of `g` hashed to `i`, and otherwise are exactly `g`'s
header block — carrying `g.help_line` and `g.type_line` — followed by `g`'s
samples hashed to `i`, so HELP/TYPE precede the shard's first sample of the
family; and each shard's text is the rendering of its event list.  (The
at-most-once half also holds without the distinct-names proviso; the
presence half fails for duplicate names, see the `c6fams` evaluation.) -/
theorem c8_help_type_once_before_first_sample (hash : List Char → List Char → Nat)
    (fams : List ParsedFamily) (N : Nat) (h1 : 1 ≤ N) (h2 : N < 2 ^ 32)
    (hdist : (fams.map (fun f => f.name)).Pairwise (fun a b => a ≠ b)) :
    (∀ i n, i < N → countHeader n (build_events hash fams N i) ≤ 1)
    ∧ (∀ g ∈ fams, ∀ i, i < N →
        famEvents g.name (build_events hash fams N i)
          = if (g.samples.filter (fun s => assignOf hash N s.raw_line = i)) = [] then []
            else SEvent.header g.name g.help_line g.type_line
              :: (g.samples.filter (fun s => assignOf hash N s.raw_line = i)).map
                   (fun s => SEvent.sample g.name s.raw_line))
    ∧ (∀ i, i < N →
        ((build_shards hash fams N).getD i ⟨[], 0, 0⟩).text
          = ((build_events hash fams N i).map renderEvent).flatten) := by
  have hA : ∀ raw, assignOf hash N raw < N := assignOf_lt hash N h1 h2
  refine ⟨?_, ?_, ?_⟩
  · intro i n hi
    have h := gs_fold_hcount hash N hA fams (List.replicate N []) (List.replicate N 0) []
      (by simp)
      (fun j m hj => by rw [getD_replicate _ _ _ _ hj]; simp [countHeader]) i n hi
    unfold build_events
    rw [h]
    split <;> omega
  · intro g hg i hi
    exact gs_fold_fam hash N hA fams hdist g hg (List.replicate N [])
      (List.replicate N 0) [] i hi (by simp)
      (by rw [getD_replicate _ _ _ _ hi]; rfl) (by simp)
  · intro i hi
    rw [build_shards_getD hash fams N i hi, bsFold_eq_render hash N fams]
    show ((gsFold hash N fams (List.replicate N [], List.replicate N 0, [])).1.map
        (fun l => (l.map renderEvent).flatten)).getD i [] = _
    have hevlen := (gs_fold_filter hash N hA fams (List.replicate N [])
      (List.replicate N 0) [] (by simp)).2
    rw [getD_map _ _ i _ [] (by rw [hevlen]; exact hi)]
    rfl

/-- Witness for `c8_help_type_once_before_first_sample` at `hashZero`,
`[upOneFam]`, `N = 1`: the single shard's events for `up` are the header
block followed by the one sample. -/
theorem c8_help_type_witness :
    (1 ≤ 1 ∧ 1 < 2 ^ 32
      ∧ (([upOneFam].map (fun f => f.name)).Pairwise (fun a b => a ≠ b)))
    ∧ countHeader (("up").toList) (build_events hashZero [upOneFam] 1 0) ≤ 1
    ∧ famEvents (("up").toList) (build_events hashZero [upOneFam] 1 0)
        = [SEvent.header (("up").toList) none none,
           SEvent.sample (("up").toList) (("up 1\n").toList)] := by
  refine ⟨⟨by decide, by decide, by simp⟩, ?_, ?_⟩
  · exact (c8_help_type_once_before_first_sample hashZero [upOneFam] 1 (by decide)
      (by decide) (by simp)).1 0 (("up").toList) (by decide)
  · have h := (c8_help_type_once_before_first_sample hashZero [upOneFam] 1 (by decide)
      (by decide) (by simp)).2.1 upOneFam (by simp) 0 (by decide)
    rw [show upOneFam.name = ("up").toList from rfl] at h
    rw [h]
    decide

end PromReaper
